import Mathlib

/-!
Verification of the BeakerTools typescript-toolkit library.

This file gives a shallow embedding, in Lean 4, of the pure computational
content of the library: the batching and retry utilities
(src/GatewayProcessor/Utils.ts), the Scrypto value renderer
(parseNonFungibleData and its helpers), the resource-information
aggregation pipeline of GatewayProcessor (getResourcesInformation,
getFungibleResourcesHeldBy, getNonFungibleItemsFromIds,
fullTransactionStream, submitManifest), and the NFT global-id codec
(src/Types/NFT.ts).

Remote gateway responses are modelled as oracles (functions from a request
to the response data); JavaScript runtime behaviour that matters to the
claims is modelled explicitly: array slicing clamps like Array.prototype
.slice, string truthiness treats the empty string as false, a JS Map is an
insertion-ordered association list whose set operation replaces in place,
accessing a property of an undefined value raises (modelled with Except),
and loops are run on explicit fuel so that termination itself is a theorem
rather than an assumption.
-/

namespace TsToolkit

/-! ## JavaScript primitives -/

/-- Array.prototype.slice with JavaScript index clamping: a negative index
counts from the end of the array, and both indices clamp into bounds. -/
def jsSlice {α : Type} (l : List α) (start stop : Int) : List α :=
  let len : Int := l.length
  let s : Int := if start < 0 then max (len + start) 0 else min start len
  let e : Int := if stop < 0 then max (len + stop) 0 else min stop len
  (l.drop s.toNat).take (e - s).toNat

/-- String.prototype.slice, via jsSlice on the character list. -/
def jsStringSlice (s : String) (start stop : Int) : String :=
  String.mk (jsSlice s.data start stop)

/-- JavaScript string truthiness of an optional string: undefined and the
empty string are falsy. -/
def jsTruthy (o : Option String) : Bool :=
  match o with
  | some s => s != ""
  | none => false

/-- JavaScript coercion of an optional string for template literals and
string concatenation: undefined prints as "undefined". -/
def jsShow (o : Option String) : String :=
  match o with
  | some s => s
  | none => "undefined"

/-- Number.MAX_SAFE_INTEGER. -/
def maxSafeInteger : Nat := 9007199254740991

/-- JS Map.set on an insertion-ordered association list: replace the value
in place if the key is present, append a fresh entry otherwise. -/
def mapSet {α : Type} (m : List (String × α)) (k : String) (v : α) :
    List (String × α) :=
  if m.any (fun p => p.1 == k) then
    m.map (fun p => if p.1 == k then (k, v) else p)
  else m ++ [(k, v)]

/-- JS Map.get: the value stored at the key, or undefined. -/
def mapGet {α : Type} (m : List (String × α)) (k : String) : Option α :=
  (m.find? (fun p => p.1 == k)).map Prod.snd

/-- The keys of an association list, in insertion order. -/
def mapKeys {α : Type} (m : List (String × α)) : List String :=
  m.map Prod.fst

/-! ## Batching utility: divideInBatches (src/GatewayProcessor/Utils.ts)

The source loop is

  for (let i = 0; i < collection.length; i += batchSize) {
    const batch = collection.slice(i, i + batchSize);
    batches.push(batch);
  }

embedded with an explicit fuel so that the (non-)termination of the loop at
non-positive batch sizes is expressible. -/

def divideInBatchesGo {α : Type} (collection : List α) (batchSize : Int) :
    Nat → Int → List (List α) → Option (List (List α))
  | 0, _, _ => none
  | fuel + 1, i, batches =>
    if i < (collection.length : Int) then
      divideInBatchesGo collection batchSize fuel (i + batchSize)
        (batches ++ [jsSlice collection i (i + batchSize)])
    else
      some batches

/-- divideInBatches, run with enough fuel for any positive batch size. -/
def divideInBatches {α : Type} (collection : List α) (batchSize : Int) :
    Option (List (List α)) :=
  divideInBatchesGo collection batchSize (collection.length + 1) 0 []

/-- Reference chunking function: consecutive chunks of size b (last one
possibly shorter); returns [] when b = 0, a case the loop never reaches
under the positivity precondition. -/
def chunks {α : Type} : List α → Nat → List (List α)
  | [], _ => []
  | _ :: _, 0 => []
  | x :: xs, b + 1 =>
    (x :: xs).take (b + 1) :: chunks ((x :: xs).drop (b + 1)) (b + 1)
termination_by l _ => l.length
decreasing_by simp; omega

/-! ## Retry utility: withMaxLoops (src/GatewayProcessor/Utils.ts)

The wrapped async operation is modelled as a function from the attempt
index (0-based) to an Except outcome. The run records how many times the
operation was invoked, the total milliseconds spent in setTimeout waits,
and the console.log output. -/

structure LoopRun (E A : Type) where
  calls : Nat
  waitMs : Nat
  log : List String
  result : Except E A

def withMaxLoopsGo {E A : Type} (toRun : Nat → Except E A)
    (errorMessage : String) (maxLoops : Nat) :
    Nat → Nat → Nat → Nat → Option (LoopRun E A)
  | 0, _, _, _ => none
  | fuel + 1, loopCount, calls, waitMs =>
    match toRun calls with
    | Except.ok a => some ⟨calls + 1, waitMs, [], Except.ok a⟩
    | Except.error err =>
      if loopCount + 1 = maxLoops then
        some ⟨calls + 1, waitMs, [errorMessage], Except.error err⟩
      else
        withMaxLoopsGo toRun errorMessage maxLoops fuel (loopCount + 1)
          (calls + 1) (waitMs + 500)

/-- withMaxLoops, run with fuel maxLoops: enough for every run that the
source loop would finish, since every iteration either returns or
increments loopCount towards the cap. -/
def withMaxLoops {E A : Type} (toRun : Nat → Except E A)
    (errorMessage : String) (maxLoops : Nat) : Option (LoopRun E A) :=
  withMaxLoopsGo toRun errorMessage maxLoops maxLoops 0 0 0

/-! ## Scrypto value model (ProgrammaticScryptoSborValue) and the parser
parseNonFungibleData (src/GatewayProcessor/Utils.ts, current copy). -/

mutual
inductive Sbor : Type where
  | array (fieldName : Option String) (elements : List Sbor)
  | bool (fieldName : Option String) (value : Bool)
  | bytes (fieldName : Option String) (hex : String)
  | decimal (fieldName : Option String) (value : String)
  | enum (fieldName : Option String) (typeName : Option String)
      (variantName : Option String) (fields : List Sbor)
  | i128 (fieldName : Option String) (value : String)
  | i64 (fieldName : Option String) (value : String)
  | i32 (fieldName : Option String) (value : String)
  | i16 (fieldName : Option String) (value : String)
  | i8 (fieldName : Option String) (value : String)
  | map (fieldName : Option String) (keyTypeName : Option String)
      (valueTypeName : Option String) (entries : List SborMapEntry)
  | nonFungibleLocalId (fieldName : Option String) (value : String)
  | own (fieldName : Option String) (value : String)
  | preciseDecimal (fieldName : Option String) (value : String)
  | reference (fieldName : Option String) (value : String)
  | string (fieldName : Option String) (value : String)
  | tuple (fieldName : Option String) (fields : List Sbor)
  | u128 (fieldName : Option String) (value : String)
  | u64 (fieldName : Option String) (value : String)
  | u32 (fieldName : Option String) (value : String)
  | u16 (fieldName : Option String) (value : String)
  | u8 (fieldName : Option String) (value : String)

inductive SborMapEntry : Type where
  | mk (key : Sbor) (value : Sbor)
end

/-- The parsed (name, stringValue) pair (type NonFungibleData of
src/Types/RadixTypes.ts); the source initialises name with
`data.field_name ? data.field_name : ""`. -/
structure NonFungibleData where
  name : String
  value : String
deriving DecidableEq

/-- The field-name coercion `data.field_name ? data.field_name : ""`. -/
def fieldNameOr (o : Option String) : String :=
  match o with
  | some s => s
  | none => ""

/-- The fold `array_str.forEach((sub) => { str += sub + ", "; })` followed
by `str.slice(0, -2)` of arrayStringToString. -/
def arrayStringToString (arrayStr : List String) : String :=
  jsStringSlice (arrayStr.foldl (fun str subStr => str ++ subStr ++ ", ") "") 0 (-2)

mutual
def parseNonFungibleData : Sbor → NonFungibleData
  | Sbor.array fn elements =>
    ⟨fieldNameOr fn, "(" ++ arrayStringToString (sborValues elements) ++ ")"⟩
  | Sbor.bool fn v => ⟨fieldNameOr fn, if v then "true" else "false"⟩
  | Sbor.bytes fn hex => ⟨fieldNameOr fn, hex⟩
  | Sbor.decimal fn v => ⟨fieldNameOr fn, v⟩
  | Sbor.enum fn tn vn fields =>
    if tn = some "Option" then
      if vn = some "Some" then
        ⟨fieldNameOr fn, arrayStringToString (sborValues fields)⟩
      else ⟨fieldNameOr fn, "None"⟩
    else
      let v0 := arrayStringToString (sborValues fields)
      let v1 := if fields.length > 0 then "(" ++ v0 ++ ")" else v0
      let v2 := if jsTruthy vn then jsShow vn ++ v1 else v1
      ⟨fieldNameOr fn, v2⟩
  | Sbor.i128 fn v => ⟨fieldNameOr fn, v⟩
  | Sbor.i64 fn v => ⟨fieldNameOr fn, v⟩
  | Sbor.i32 fn v => ⟨fieldNameOr fn, v⟩
  | Sbor.i16 fn v => ⟨fieldNameOr fn, v⟩
  | Sbor.i8 fn v => ⟨fieldNameOr fn, v⟩
  | Sbor.map fn ktn vtn entries =>
    let v0 := "(" ++ arrayStringToString (mapEntryStrings entries) ++ ")"
    let v1 :=
      if jsTruthy ktn && jsTruthy vtn then
        "<" ++ jsShow ktn ++ ", " ++ jsShow vtn ++ ">" ++ v0
      else v0
    ⟨fieldNameOr fn, "Map" ++ v1⟩
  | Sbor.nonFungibleLocalId fn v => ⟨fieldNameOr fn, v⟩
  | Sbor.own fn v => ⟨fieldNameOr fn, v⟩
  | Sbor.preciseDecimal fn v => ⟨fieldNameOr fn, v⟩
  | Sbor.reference fn v => ⟨fieldNameOr fn, v⟩
  | Sbor.string fn v => ⟨fieldNameOr fn, v⟩
  | Sbor.tuple fn fields =>
    ⟨fieldNameOr fn, "(" ++ arrayStringToString (sborValues fields) ++ ")"⟩
  | Sbor.u128 fn v => ⟨fieldNameOr fn, v⟩
  | Sbor.u64 fn v => ⟨fieldNameOr fn, v⟩
  | Sbor.u32 fn v => ⟨fieldNameOr fn, v⟩
  | Sbor.u16 fn v => ⟨fieldNameOr fn, v⟩
  | Sbor.u8 fn v => ⟨fieldNameOr fn, v⟩

/-- dataArrayToString's `data_array.map((elem) => parseNonFungibleData(elem).value)`. -/
def sborValues : List Sbor → List String
  | [] => []
  | x :: xs => (parseNonFungibleData x).value :: sborValues xs

/-- mapToString's per-entry rendering `kind.value + " => " + value.value`
(the current copy renders the parsed key first, then the parsed value). -/
def mapEntryStrings : List SborMapEntry → List String
  | [] => []
  | SborMapEntry.mk k v :: rest =>
    ((parseNonFungibleData k).value ++ " => " ++ (parseNonFungibleData v).value)
      :: mapEntryStrings rest
end

/-- Reference comma join used to state rendering properties. -/
def commaJoin : List String → String
  | [] => ""
  | [x] => x
  | x :: y :: xs => x ++ ", " ++ commaJoin (y :: xs)

/-- The per-entry rendering named by the claim: parsed key, then the
arrow, then the parsed value. -/
def mapEntryRendering (e : SborMapEntry) : String :=
  match e with
  | SborMapEntry.mk k v =>
    (parseNonFungibleData k).value ++ " => " ++ (parseNonFungibleData v).value

/-! ## getNonFungibleItemsFromIds (src/GatewayProcessor/GatewayProcessor.ts)

The remote call getNonFungibleData is modelled as an oracle from a
non-fungible id to the response item; the gateway returns one item per
queried id of a batch, in query order. -/

/-- A StateNonFungibleDetailsResponseItem: the id and the optional
programmatic_json payload of its data. -/
structure NftItemData where
  nonFungibleId : String
  data : Option Sbor

/-- A NonFungibleItem (src/Types/RadixTypes.ts); the generic data map is
optional and the source leaves it undefined when empty. -/
structure NonFungibleItem where
  id : String
  name : Option String
  description : Option String
  imageUrl : Option String
  nonFungibleData : Option (List (String × String))

/-- The per-field accumulator state of the item reconstruction loop. -/
structure NftFieldState where
  name : Option String
  description : Option String
  imageUrl : Option String
  nonFungibleData : List (String × String)

/-- One iteration of the `fields.forEach` loop: parse the field, then
promote name, description and key_image_url, or bucket any other truthy
field name into the generic map. -/
def nftFieldStep (st : NftFieldState) (field : Sbor) : NftFieldState :=
  let nfData := parseNonFungibleData field
  if nfData.name != "" then
    if nfData.name == "name" then { st with name := some nfData.value }
    else if nfData.name == "description" then
      { st with description := some nfData.value }
    else if nfData.name == "key_image_url" then
      { st with imageUrl := some nfData.value }
    else
      { st with nonFungibleData := mapSet st.nonFungibleData nfData.name nfData.value }
  else st

/-- Reconstruction of one NonFungibleItem from one response item. -/
def mkNonFungibleItem (item : NftItemData) : NonFungibleItem :=
  let st0 : NftFieldState := ⟨none, none, none, []⟩
  let st :=
    match item.data with
    | some (Sbor.tuple _ fields) => fields.foldl nftFieldStep st0
    | _ => st0
  ⟨item.nonFungibleId, st.name, st.description, st.imageUrl,
    if st.nonFungibleData.length > 0 then some st.nonFungibleData else none⟩

/-- getNonFungibleItemsFromIds: batch the ids by 100, fetch each batch
(concurrently in the source; Promise.all preserves batch order in the
result array), map every response item through the reconstruction, and
flatten. -/
def getNonFungibleItemsFromIds (oracle : String → NftItemData)
    (resourceAddress : String) (ids : List String) :
    Option (List NonFungibleItem) :=
  match divideInBatches ids 100 with
  | none => none
  | some nftBatches =>
    some ((nftBatches.map (fun batch => (batch.map oracle).map mkNonFungibleItem)).flatten)

/-! ## getResourcesInformation (src/GatewayProcessor/GatewayProcessor.ts)

entityDetails is modelled as an oracle from one queried address to that
address's response item (details and metadata); the gateway returns one
item per queried address. The scan of one entity's metadata items can
throw: when a metadata value of one of the four recognised keys is an Enum
with zero fields, the source reads `.kind` of `fields[0]!`, which is
undefined at run time. -/

inductive ResourceDetailsType : Type where
  | fungibleResource
  | nonFungibleResource
deriving DecidableEq

structure EntityMetadataItem where
  key : String
  value : Sbor

/-- One item of a StateEntityDetailsResponse: the optional details object
(carrying its type tag) and the metadata item list. -/
structure EntityDetailsData where
  details : Option ResourceDetailsType
  metadata : List EntityMetadataItem

structure FungibleResourceInformation where
  name : String
  address : String
  description : Option String
  icon : Option String
  symbol : Option String
  otherMetadata : List (String × Sbor)

structure NonFungibleResourceInformation where
  name : String
  address : String
  description : Option String
  icon : Option String
  otherMetadata : List (String × Sbor)

inductive ResourceInformation : Type where
  | fungible (information : FungibleResourceInformation)
  | nonFungible (information : NonFungibleResourceInformation)

/-- Unwrap a metadata value into a string, as the four recognised switch
cases do: a String kind yields its value; an Enum kind reads fields[0]!
(raising on an empty field list) and yields the field's value when it is a
String; any other kind leaves the accumulator untouched (modelled as
Except.ok none). -/
def metadataString (v : Sbor) : Except Unit (Option String) :=
  match v with
  | Sbor.string _ s => Except.ok (some s)
  | Sbor.enum _ _ _ fields =>
    match fields with
    | [] => Except.error ()
    | field :: _ =>
      match field with
      | Sbor.string _ s => Except.ok (some s)
      | _ => Except.ok none
  | _ => Except.ok none

/-- The accumulator of the metadata scan of limitedResourcesInformation. -/
structure ScanState where
  name : Option String
  description : Option String
  icon : Option String
  symbol : Option String
  other : List (String × Sbor)

/-- Keep the previous binding when the unwrap yields nothing. -/
def keepOr (old new : Option String) : Option String :=
  match new with
  | some s => some s
  | none => old

/-- One iteration of `item.metadata.items.forEach`: the switch over the
metadata key. -/
def scanMetadataItem (additionalMetadata : Option (List String))
    (st : ScanState) (item : EntityMetadataItem) : Except Unit ScanState :=
  if item.key == "name" then
    (metadataString item.value).map (fun r => { st with name := keepOr st.name r })
  else if item.key == "description" then
    (metadataString item.value).map (fun r => { st with description := keepOr st.description r })
  else if item.key == "icon_url" then
    (metadataString item.value).map (fun r => { st with icon := keepOr st.icon r })
  else if item.key == "symbol" then
    (metadataString item.value).map (fun r => { st with symbol := keepOr st.symbol r })
  else
    match additionalMetadata with
    | some keys =>
      if item.key ∈ keys then
        Except.ok { st with other := mapSet st.other item.key item.value }
      else Except.ok st
    | none => Except.ok st

def scanMetadata (additionalMetadata : Option (List String))
    (items : List EntityMetadataItem) : Except Unit ScanState :=
  items.foldlM (scanMetadataItem additionalMetadata) ⟨none, none, none, none, []⟩

/-- The per-entity outcome of limitedResourcesInformation's loop body:
nothing when the details object is absent or no truthy name was resolved
(`if (name)`, where the empty string is falsy), otherwise the
ResourceInformation built from the scan. -/
def entityResourceInformation (additionalMetadata : Option (List String))
    (addr : String) (item : EntityDetailsData) :
    Except Unit (Option ResourceInformation) :=
  match item.details with
  | none => Except.ok none
  | some detailsType =>
    match scanMetadata additionalMetadata item.metadata with
    | Except.error e => Except.error e
    | Except.ok st =>
      Except.ok
        (match st.name with
         | none => none
         | some nm =>
           if nm = "" then none
           else
             match detailsType with
             | ResourceDetailsType.nonFungibleResource =>
               some (ResourceInformation.nonFungible
                 ⟨nm, addr, st.description, st.icon, st.other⟩)
             | ResourceDetailsType.fungibleResource =>
               some (ResourceInformation.fungible
                 ⟨nm, addr, st.description, st.icon, st.symbol, st.other⟩))

/-- One iteration of `resp.items.forEach` in limitedResourcesInformation:
record the entity in the map exactly when it resolved. -/
def processEntityItem (additionalMetadata : Option (List String))
    (m : List (String × ResourceInformation)) (addr : String)
    (item : EntityDetailsData) :
    Except Unit (List (String × ResourceInformation)) :=
  match entityResourceInformation additionalMetadata addr item with
  | Except.error e => Except.error e
  | Except.ok none => Except.ok m
  | Except.ok (some info) => Except.ok (mapSet m addr info)

/-- The `resp.items.forEach` loop of limitedResourcesInformation: a thrown
error aborts the whole call. -/
def limitedResourcesInformationGo (oracle : String → EntityDetailsData)
    (additionalMetadata : Option (List String)) :
    List String → List (String × ResourceInformation) →
    Except Unit (List (String × ResourceInformation))
  | [], m => Except.ok m
  | addr :: rest, m =>
    match processEntityItem additionalMetadata m addr (oracle addr) with
    | Except.error e => Except.error e
    | Except.ok m2 => limitedResourcesInformationGo oracle additionalMetadata rest m2

/-- limitedResourcesInformation: call entityDetails on up to 20 addresses
and scan every returned item. -/
def limitedResourcesInformation (oracle : String → EntityDetailsData)
    (additionalMetadata : Option (List String)) (batch : List String) :
    Except Unit (List (String × ResourceInformation)) :=
  limitedResourcesInformationGo oracle additionalMetadata batch []

/-- The batch loop of getResourcesInformation: each batch result is merged
into the shared map with Map.set; a rejected batch rejects the whole
Promise.all. -/
def mergeBatchesGo (oracle : String → EntityDetailsData)
    (additionalMetadata : Option (List String)) :
    List (List String) → List (String × ResourceInformation) →
    Except Unit (List (String × ResourceInformation))
  | [], resourceMap => Except.ok resourceMap
  | batch :: rest, resourceMap =>
    match limitedResourcesInformation oracle additionalMetadata batch with
    | Except.error e => Except.error e
    | Except.ok items =>
      mergeBatchesGo oracle additionalMetadata rest
        (items.foldl (fun acc kv => mapSet acc kv.1 kv.2) resourceMap)

/-- getResourcesInformation: split the addresses into batches of 20, run
limitedResourcesInformation on every batch (concurrently bounded in the
source), and merge every batch result into one map. -/
def getResourcesInformation (oracle : String → EntityDetailsData)
    (resourceAddresses : List String)
    (additionalMetadata : Option (List String)) :
    Except Unit (List (String × ResourceInformation)) :=
  match divideInBatches resourceAddresses 20 with
  | none => Except.error ()
  | some batches => mergeBatchesGo oracle additionalMetadata batches []

/-- The claim-side resolution predicate, from the source scan: the entity
has a details object and its metadata scan resolves a truthy name. -/
def resolvesNameB (additionalMetadata : Option (List String))
    (item : EntityDetailsData) : Bool :=
  match item.details with
  | none => false
  | some _ =>
    match scanMetadata additionalMetadata item.metadata with
    | Except.error _ => false
    | Except.ok st =>
      match st.name with
      | some nm => nm != ""
      | none => false

/-- The per-address recorded information: some exactly when the loop body
would add the entity to the map. -/
def resolvedInfo (additionalMetadata : Option (List String)) (addr : String)
    (item : EntityDetailsData) : Option ResourceInformation :=
  match entityResourceInformation additionalMetadata addr item with
  | Except.ok (some ri) => some ri
  | _ => none

/-- The specification-side resolution predicate, taken from the words of
the claim: the entity's metadata has a name entry holding either a plain
string value or an enum wrapping a single string field. -/
def resolvesNameSpec (item : EntityDetailsData) : Bool :=
  item.metadata.any (fun md =>
    md.key == "name" &&
      (match md.value with
       | Sbor.string _ _ => true
       | Sbor.enum _ _ _ [Sbor.string _ _] => true
       | _ => false))

/-! ## getFungibleResourcesHeldBy (src/GatewayProcessor/GatewayProcessor.ts)

The entityDetails call on the queried component is modelled by a second
oracle giving its fungible_resources collection; parseFloat is an external
JavaScript primitive, modelled as an abstract function into an abstract
numeric type. -/

inductive AggregationLevel : Type where
  | global
  | vault
deriving DecidableEq

/-- One item of an entity's fungible_resources collection. -/
structure FungibleResourceItem where
  aggregationLevel : AggregationLevel
  resourceAddress : String
  amount : String

structure EntityState where
  fungibleResources : Option (List FungibleResourceItem)

/-- A FungibleResource (src/Types/RadixTypes.ts). amountHeld is optional
because the source reads `amount_map.get(address)!`, whose runtime value is
undefined when the key is missing. -/
structure FungibleResource (Num : Type) where
  name : String
  address : String
  description : Option String
  icon : Option String
  symbol : Option String
  amountHeld : Option Num

/-- getFungibleResourcesHeldBy: collect the Global-aggregated holdings,
resolve the resource metadata through getResourcesInformation, and join by
address. The source fills the output's name field from
`resource.information.address`. -/
def getFungibleResourcesHeldBy {Num : Type} (parseFloat : String → Num)
    (entityOracle : String → EntityState)
    (resourceOracle : String → EntityDetailsData) (entity : String) :
    Except Unit (List (FungibleResource Num)) :=
  let entityState := entityOracle entity
  let collected :=
    match entityState.fungibleResources with
    | none => (([] : List String), ([] : List (String × Num)))
    | some items =>
      items.foldl
        (fun (acc : List String × List (String × Num)) (resource : FungibleResourceItem) =>
          if resource.aggregationLevel = AggregationLevel.global then
            (acc.1 ++ [resource.resourceAddress],
             mapSet acc.2 resource.resourceAddress (parseFloat resource.amount))
          else acc)
        ([], [])
  let resources := collected.1
  let amountMap := collected.2
  if resources.length = 0 then Except.ok []
  else
    match getResourcesInformation resourceOracle resources none with
    | Except.error e => Except.error e
    | Except.ok parsedResources =>
      Except.ok
        (parsedResources.foldl
          (fun heldResources kv =>
            match kv.2 with
            | ResourceInformation.fungible information =>
              heldResources ++
                [⟨information.address, information.address,
                  information.description, information.icon,
                  information.symbol, mapGet amountMap kv.1⟩]
            | ResourceInformation.nonFungible _ => heldResources)
          [])

/-! ## fullTransactionStream and submitManifest -/

inductive TransactionStatus : Type where
  | unknown
  | committedSuccess
  | committedFailure
  | pending
  | rejected
deriving DecidableEq

/-- A CommittedTransactionInfo restricted to the fields the claims read. -/
structure CommittedTransactionInfo where
  intentHash : Option String
  transactionStatus : TransactionStatus
  errorMessage : Option String
deriving DecidableEq

/-- The cursor-following do-while loop of fullTransactionStream over the
remaining stream pages; the next_cursor is present exactly while further
pages remain. Returns the accumulated stream and the number of pages
fetched. -/
def streamGo (stopAmount : Nat) (fullStream : List CommittedTransactionInfo) :
    List (List CommittedTransactionInfo) →
    List CommittedTransactionInfo × Nat
  | [] => (fullStream, 0)
  | page :: rest =>
    let fullStream2 := fullStream ++
      page.filter (fun tx => tx.transactionStatus == TransactionStatus.committedSuccess)
    if rest ≠ [] ∧ fullStream2.length < stopAmount then
      let r := streamGo stopAmount fullStream2 rest
      (r.1, r.2 + 1)
    else (fullStream2, 1)

/-- fullTransactionStream: `max_amount ? max_amount : MAX_SAFE_INTEGER`
(zero is falsy), followed by the loop and `full_stream.slice(0, stop_amount)`. -/
def fullTransactionStream (pages : List (List CommittedTransactionInfo))
    (maxAmount : Option Nat) : List CommittedTransactionInfo :=
  let stopAmount : Nat :=
    match maxAmount with
    | some m => if m = 0 then maxSafeInteger else m
    | none => maxSafeInteger
  jsSlice (streamGo stopAmount [] pages).1 0 stopAmount

/-- The successful transactions of a page list, in stream order. -/
def successesOf (pages : List (List CommittedTransactionInfo)) :
    List CommittedTransactionInfo :=
  (pages.map (fun page =>
    page.filter (fun tx => tx.transactionStatus == TransactionStatus.committedSuccess))).flatten

/-- The status-polling while loop of submitManifest: keep calling
getTransactionStatus until the response status is no longer Pending;
returns the number of calls made. The poll responses are an oracle from
the call index. -/
def pollStatusGo (statusSeq : Nat → TransactionStatus) :
    Nat → Nat → Option Nat
  | 0, _ => none
  | fuel + 1, calls =>
    if statusSeq calls = TransactionStatus.pending then
      pollStatusGo statusSeq fuel (calls + 1)
    else some (calls + 1)

/-- The observable outcome of one submitManifest run. -/
structure SubmitRun where
  polls : Nat
  log : List String
  result : CommittedTransactionInfo
deriving DecidableEq

/-- submitManifest, after the opaque cryptographic steps (header build,
sign, notarize, compile, submit) have succeeded: poll the status until it
is not Pending, fetch the committed details (the committed oracle), log
success or failure, and return the transaction record either way. -/
def submitManifest (statusSeq : Nat → TransactionStatus)
    (committed : CommittedTransactionInfo) (fuel : Nat) : Option SubmitRun :=
  match pollStatusGo statusSeq fuel 0 with
  | none => none
  | some polls =>
    let transaction := committed
    let log :=
      if transaction.transactionStatus ≠ TransactionStatus.committedSuccess then
        ["Transaction " ++ jsShow transaction.intentHash ++
          " failed with error: " ++ jsShow transaction.errorMessage]
      else ["Transaction " ++ jsShow transaction.intentHash ++ " succeeded!"]
    some ⟨polls, log, transaction⟩

/-! ## NFT global id codec (src/Types/NFT.ts)

JavaScript array indexing out of bounds yields undefined, never null, so
the result of `globalId.split(":")` is modelled with a value type keeping
null and undefined distinct. -/

inductive JsVal : Type where
  | str (s : String)
  | undefinedVal
  | nullVal
deriving DecidableEq

/-- JS array indexing: the element, or undefined when out of bounds. -/
def jsIndex (parts : List String) (i : Nat) : JsVal :=
  match parts[i]? with
  | some s => JsVal.str s
  | none => JsVal.undefinedVal

/-- JS string coercion of a value, as used by the + operator. -/
def jsValString (v : JsVal) : String :=
  match v with
  | JsVal.str s => s
  | JsVal.undefinedVal => "undefined"
  | JsVal.nullVal => "null"

/-- String.prototype.split on a one-character separator, on the character
list of the string. -/
def splitOnCharAux (sep : Char) : List Char → List (List Char)
  | [] => [[]]
  | c :: cs =>
    let r := splitOnCharAux sep cs
    if c = sep then [] :: r
    else
      match r with
      | [] => [[c]]
      | g :: gs => (c :: g) :: gs

def jsSplit (s : String) (sep : Char) : List String :=
  (splitOnCharAux sep s.data).map (fun l => String.mk l)

/-- The NFT class fields; both are typed string in the source but the
constructor can receive undefined at run time. -/
structure NFT where
  resourceAddress : JsVal
  localId : JsVal
deriving DecidableEq

/-- NFT.fromGlobalId: split on ":", take parts[0] and parts[1], and throw
when either is null. -/
def fromGlobalId (globalId : String) : Except Unit NFT :=
  let parts := jsSplit globalId ':'
  let resourceAddress := jsIndex parts 0
  let localId := jsIndex parts 1
  if resourceAddress ≠ JsVal.nullVal ∧ localId ≠ JsVal.nullVal then
    Except.ok ⟨resourceAddress, localId⟩
  else Except.error ()

/-- NFT.globalId: `this._resourceAddress + ":" + this._localId`. -/
def nftGlobalId (nft : NFT) : String :=
  jsValString nft.resourceAddress ++ ":" ++ jsValString nft.localId

/-! ## Claim-side reference functions for the item reconstruction -/

/-- The value the source's loop leaves in a promoted attribute carrying
the given field name: the last matching field wins, since later
assignments overwrite earlier ones. -/
def promotedField (key : String) : List Sbor → Option String
  | [] => none
  | f :: fs =>
    let nf := parseNonFungibleData f
    match promotedField key fs with
    | some v => some v
    | none => if nf.name = key then some nf.value else none

/-- A parsed field is bucketed into the generic data map exactly when its
name is truthy and not one of the three promoted names. -/
def isExtraField (nf : NonFungibleData) : Bool :=
  nf.name != "" && nf.name != "name" && nf.name != "description" &&
    nf.name != "key_image_url"

def hasExtraField (fields : List Sbor) : Bool :=
  fields.any (fun f => isExtraField (parseNonFungibleData f))

/-- The last value bucketed into the generic data map at the given key. -/
def lastExtraValue (key : String) : List Sbor → Option String
  | [] => none
  | f :: fs =>
    let nf := parseNonFungibleData f
    match lastExtraValue key fs with
    | some v => some v
    | none =>
      if isExtraField nf ∧ nf.name = key then some nf.value else none

/-! # Theorems -/

/-! ## Association-list map lemmas -/

theorem mapGet_cons {α : Type} (p : String × α) (m : List (String × α)) (k : String) :
    mapGet (p :: m) k = if p.1 == k then some p.2 else mapGet m k := by
  cases hpk : (p.1 == k) with
  | true => simp [mapGet, List.find?_cons_of_pos, hpk]
  | false => simp [mapGet, List.find?_cons_of_neg, hpk]

theorem mapGet_map_subst {α : Type} (m : List (String × α)) (k : String) (v : α)
    (k' : String) (h : k' ≠ k) :
    mapGet (m.map (fun p => if p.1 == k then (k, v) else p)) k' = mapGet m k' := by
  induction m with
  | nil => rfl
  | cons p rest ih =>
    by_cases hp : p.1 = k
    · simp only [List.map_cons, hp, beq_self_eq_true, if_true]
      rw [mapGet_cons, mapGet_cons, ih]
      have h1 : (k == k') = false := beq_eq_false_iff_ne.mpr (fun e => h e.symm)
      have h2 : (p.1 == k') = false := beq_eq_false_iff_ne.mpr (by rw [hp]; exact fun e => h e.symm)
      rw [h1, h2]
      simp
    · have hp' : (p.1 == k) = false := beq_eq_false_iff_ne.mpr hp
      simp only [List.map_cons, hp', Bool.false_eq_true, if_false]
      rw [mapGet_cons, mapGet_cons, ih]

theorem mapGet_map_subst_self {α : Type} (m : List (String × α)) (k : String) (v : α)
    (h : m.any (fun p => p.1 == k) = true) :
    mapGet (m.map (fun p => if p.1 == k then (k, v) else p)) k = some v := by
  induction m with
  | nil => simp at h
  | cons p rest ih =>
    by_cases hp : p.1 = k
    · simp only [List.map_cons, hp, beq_self_eq_true, if_true]
      rw [mapGet_cons]
      simp
    · have hp' : (p.1 == k) = false := beq_eq_false_iff_ne.mpr hp
      simp only [List.map_cons, hp', Bool.false_eq_true, if_false]
      rw [mapGet_cons, hp']
      simp only [Bool.false_eq_true, if_false]
      apply ih
      simpa [hp'] using h

theorem mapGet_mapSet {α : Type} (m : List (String × α)) (k : String) (v : α)
    (k' : String) :
    mapGet (mapSet m k v) k' = if k' = k then some v else mapGet m k' := by
  unfold mapSet
  cases hany : (m.any (fun p => p.1 == k)) with
  | true =>
    simp only [hany, if_true]
    by_cases hk : k' = k
    · subst hk
      rw [mapGet_map_subst_self m k' v hany, if_pos rfl]
    · rw [mapGet_map_subst m k v k' hk, if_neg hk]
  | false =>
    simp only [hany, Bool.false_eq_true, if_false]
    induction m with
    | nil =>
      simp only [List.nil_append]
      rw [mapGet_cons]
      by_cases hk : k' = k
      · simp [hk]
      · have h1 : (k == k') = false := beq_eq_false_iff_ne.mpr (fun e => hk e.symm)
        simp [h1, hk, mapGet]
    | cons p rest ih =>
      rw [List.any_cons] at hany
      have hsplit : (p.1 == k) = false ∧ rest.any (fun p => p.1 == k) = false := by
        constructor
        · cases hp : (p.1 == k) with
          | true => rw [hp] at hany; simp at hany
          | false => rfl
        · cases hr : rest.any (fun p => p.1 == k) with
          | true => rw [hr] at hany; simp at hany
          | false => rfl
      obtain ⟨hp, hrest⟩ := hsplit
      simp only [List.cons_append]
      rw [mapGet_cons, mapGet_cons, ih hrest]
      have hpk : p.1 ≠ k := by simpa using hp
      by_cases hk : k' = k
      · subst hk
        rw [beq_eq_false_iff_ne.mpr hpk]
        simp
      · simp [hk]

theorem mapGet_isSome_iff_mem {α : Type} (m : List (String × α)) (k : String) :
    (mapGet m k).isSome = true ↔ k ∈ mapKeys m := by
  induction m with
  | nil => simp [mapGet, mapKeys]
  | cons p rest ih =>
    rw [mapGet_cons]
    by_cases hp : p.1 = k
    · simp [mapKeys, hp]
    · have hp' : (p.1 == k) = false := beq_eq_false_iff_ne.mpr hp
      rw [hp']
      simp only [Bool.false_eq_true, if_false, mapKeys, List.map_cons, List.mem_cons]
      rw [ih]
      unfold mapKeys
      constructor
      · exact Or.inr
      · intro hv
        rcases hv with hv | hv
        · exact absurd hv.symm hp
        · exact hv

theorem mapKeys_mapSet_nodup {α : Type} (m : List (String × α)) (k : String) (v : α)
    (h : (mapKeys m).Nodup) : (mapKeys (mapSet m k v)).Nodup := by
  unfold mapSet
  cases hany : (m.any (fun p => p.1 == k)) with
  | true =>
    simp only [hany, if_true]
    have hkeys : mapKeys (m.map (fun p => if p.1 == k then (k, v) else p)) = mapKeys m := by
      unfold mapKeys
      rw [List.map_map]
      apply List.map_congr_left
      intro p _
      by_cases hp : p.1 = k
      · simp [hp]
      · have hp' : (p.1 == k) = false := beq_eq_false_iff_ne.mpr hp
        simp [hp', hp]
    rw [hkeys]
    exact h
  | false =>
    simp only [hany, Bool.false_eq_true, if_false]
    unfold mapKeys at h ⊢
    rw [List.map_append]
    simp only [List.map_cons, List.map_nil]
    rw [List.nodup_append]
    refine ⟨h, List.nodup_singleton k, ?_⟩
    intro a ha hb
    simp only [List.mem_singleton] at hb
    have hmem : m.any (fun p => p.1 == k) = true := by
      rw [List.any_eq_true]
      obtain ⟨p, hp, hpk⟩ := List.mem_map.mp ha
      exact ⟨p, hp, beq_iff_eq.mpr (hpk.trans hb)⟩
    rw [hmem] at hany
    exact absurd hany (by simp)

/-! ## jsSlice lemmas -/

theorem jsSlice_zero_nat {α : Type} (l : List α) (n : Nat) :
    jsSlice l 0 ((n : Nat) : Int) = l.take n := by
  unfold jsSlice
  have h0 : ¬ ((0 : Int) < 0) := by omega
  have h1 : ¬ ((n : Int) < 0) := by omega
  simp only [if_neg h0, if_neg h1]
  have hs : (min (0 : Int) (l.length : Int)) = 0 := by omega
  rw [hs]
  have he : ((min ((n : Nat) : Int) ((l.length : Nat) : Int)) - 0).toNat = min n l.length := by
    omega
  rw [he]
  simp only [Int.toNat_zero, List.drop_zero]
  rw [List.take_eq_take]
  omega

theorem jsSlice_drop_take {α : Type} (l : List α) (i b : Nat) (h : i < l.length) :
    jsSlice l ((i : Nat) : Int) (((i : Nat) : Int) + ((b : Nat) : Int)) = (l.drop i).take b := by
  unfold jsSlice
  have h0 : ¬ (((i : Nat) : Int) < 0) := by omega
  have h1 : ¬ (((i : Nat) : Int) + ((b : Nat) : Int) < 0) := by omega
  simp only [if_neg h0, if_neg h1]
  have hs : (min ((i : Nat) : Int) ((l.length : Nat) : Int)) = (i : Int) := by omega
  rw [hs]
  have he : ((min ((i : Int) + (b : Int)) ((l.length : Nat) : Int)) - (i : Int)).toNat
      = min b (l.length - i) := by omega
  rw [he]
  have hi : ((i : Int)).toNat = i := by omega
  rw [hi]
  rw [List.take_eq_take]
  rw [List.length_drop]
  omega

/-! ## chunks lemmas and the loop bridge -/

theorem chunks_cons_of {α : Type} (l : List α) (b : Nat) (hb : 0 < b) (hl : l ≠ []) :
    chunks l b = l.take b :: chunks (l.drop b) b := by
  cases l with
  | nil => exact absurd rfl hl
  | cons x xs =>
    cases b with
    | zero => omega
    | succ b0 => rw [chunks]

theorem chunks_eq_nil_iff {α : Type} (l : List α) (b : Nat) (hb : 0 < b) :
    chunks l b = [] ↔ l = [] := by
  constructor
  · intro h
    by_contra hl
    rw [chunks_cons_of l b hb hl] at h
    exact absurd h (by simp)
  · intro h
    subst h
    simp [chunks]

theorem chunks_flatten {α : Type} {b : Nat} (hb : 0 < b) :
    ∀ (n : Nat) (l : List α), l.length = n → (chunks l b).flatten = l := by
  intro n
  induction n using Nat.strong_induction_on with
  | _ n ih =>
    intro l hn
    cases l with
    | nil => simp [chunks]
    | cons x xs =>
      rw [chunks_cons_of _ b hb (by simp)]
      rw [List.flatten_cons]
      have hlen : ((x :: xs).drop b).length < n := by
        simp only [List.length_drop, List.length_cons]
        simp only [List.length_cons] at hn
        omega
      rw [ih _ hlen _ rfl]
      exact List.take_append_drop b (x :: xs)

theorem chunks_length_le {α : Type} {b : Nat} (hb : 0 < b) :
    ∀ (n : Nat) (l : List α), l.length = n → ∀ c ∈ chunks l b, c.length ≤ b := by
  intro n
  induction n using Nat.strong_induction_on with
  | _ n ih =>
    intro l hn
    cases l with
    | nil => simp [chunks]
    | cons x xs =>
      rw [chunks_cons_of _ b hb (by simp)]
      intro c hc
      rcases List.mem_cons.mp hc with hc | hc
      · subst hc
        simp
      · have hlen : ((x :: xs).drop b).length < n := by
          simp only [List.length_drop, List.length_cons]
          simp only [List.length_cons] at hn
          omega
        exact ih _ hlen _ rfl c hc

theorem chunks_dropLast_length {α : Type} {b : Nat} (hb : 0 < b) :
    ∀ (n : Nat) (l : List α), l.length = n → ∀ c ∈ (chunks l b).dropLast, c.length = b := by
  intro n
  induction n using Nat.strong_induction_on with
  | _ n ih =>
    intro l hn
    cases l with
    | nil => simp [chunks]
    | cons x xs =>
      rw [chunks_cons_of _ b hb (by simp)]
      intro c hc
      cases ht : chunks ((x :: xs).drop b) b with
      | nil => rw [ht] at hc; simp at hc
      | cons t ts =>
        rw [ht] at hc
        rw [List.dropLast_cons_of_ne_nil (by simp)] at hc
        rcases List.mem_cons.mp hc with hc | hc
        · subst hc
          have hdrop : (x :: xs).drop b ≠ [] := by
            intro hdrop
            rw [(chunks_eq_nil_iff _ b hb).mpr hdrop] at ht
            exact absurd ht (by simp)
          have hblt : b < (x :: xs).length := by
            by_contra hge
            exact hdrop (List.drop_eq_nil_of_le (by omega))
          rw [List.length_take]
          omega
        · have hlen : ((x :: xs).drop b).length < n := by
            simp only [List.length_drop, List.length_cons]
            simp only [List.length_cons] at hn
            omega
          exact ih _ hlen _ rfl c (by rw [ht]; exact hc)

theorem divideInBatchesGo_eq_chunks {α : Type} (l : List α) (b : Nat) (hb : 0 < b) :
    ∀ (fuel : Nat) (i : Nat) (acc : List (List α)), 0 < fuel →
      (l.length : Int) - (i : Int) < (fuel : Int) →
      divideInBatchesGo l ((b : Nat) : Int) fuel ((i : Nat) : Int) acc
        = some (acc ++ chunks (l.drop i) b) := by
  intro fuel
  induction fuel with
  | zero => intro i acc h0 _; omega
  | succ fuel ih =>
    intro i acc _ h
    rw [divideInBatchesGo]
    by_cases hi : ((i : Nat) : Int) < ((l.length : Nat) : Int)
    · rw [if_pos hi]
      have hcast : ((i : Nat) : Int) + ((b : Nat) : Int) = (((i + b : Nat)) : Int) := by
        push_cast
        ring
      rw [hcast]
      have hfuel : 0 < fuel := by omega
      rw [ih (i + b) (acc ++ [jsSlice l ((i : Nat) : Int) (((i + b : Nat)) : Int)]) hfuel (by push_cast; push_cast at h hi; omega)]
      congr 1
      rw [List.append_assoc]
      congr 1
      have hilt : i < l.length := by omega
      rw [← hcast, jsSlice_drop_take l i b hilt]
      rw [chunks_cons_of (l.drop i) b hb ?hne]
      case hne =>
        intro hnil
        have := List.drop_eq_nil_iff.mp hnil
        omega
      rw [List.singleton_append]
      have hdd : (l.drop i).drop b = l.drop (i + b) := by
        simp [List.drop_drop, Nat.add_comm]
      rw [hdd]
    · rw [if_neg hi]
      have hdrop : l.drop i = [] := List.drop_eq_nil_of_le (by omega)
      rw [hdrop]
      simp [chunks]

theorem divideInBatches_eq_chunks {α : Type} (l : List α) (b : Nat) (hb : 0 < b) :
    divideInBatches l ((b : Nat) : Int) = some (chunks l b) := by
  unfold divideInBatches
  have h := divideInBatchesGo_eq_chunks l b hb (l.length + 1) 0 [] (by omega) (by push_cast; omega)
  simpa using h

theorem divideInBatchesGo_none_of_nonpos {α : Type} (l : List α) (b : Int)
    (hb : b ≤ 0) (hl : l ≠ []) :
    ∀ (fuel : Nat) (i : Int) (acc : List (List α)), i ≤ 0 →
      divideInBatchesGo l b fuel i acc = none := by
  intro fuel
  induction fuel with
  | zero => intro i acc _; rfl
  | succ fuel ih =>
    intro i acc hi
    rw [divideInBatchesGo]
    have hlen : 0 < l.length := List.length_pos.mpr hl
    rw [if_pos (by push_cast; omega)]
    exact ih (i + b) _ (by omega)

/-- Claim C2: for every sequence and every batchSize > 0, divideInBatches
terminates and returns consecutive chunks whose concatenation equals the
input in order, every batch except possibly the last has exactly batchSize
elements, every batch has at most batchSize elements, and empty input
yields empty output. (The function is embedded as a pure Lean function, so
purity is by construction.) -/
theorem divideInBatches_spec {α : Type} (l : List α) (b : Nat) (hb : 0 < b) :
    divideInBatches l ((b : Nat) : Int) = some (chunks l b) ∧
    (chunks l b).flatten = l ∧
    (∀ c ∈ (chunks l b).dropLast, c.length = b) ∧
    (∀ c ∈ chunks l b, c.length ≤ b) ∧
    divideInBatches ([] : List α) ((b : Nat) : Int) = some [] := by
  refine ⟨divideInBatches_eq_chunks l b hb, chunks_flatten hb l.length l rfl,
    chunks_dropLast_length hb l.length l rfl, chunks_length_le hb l.length l rfl, ?_⟩
  have h := divideInBatches_eq_chunks ([] : List α) b hb
  simpa [chunks] using h

/-- Witness for C2 at a concrete input. -/
theorem divideInBatches_spec_witness :
    (0 : Nat) < 2 ∧
    divideInBatches [10, 20, 30, 40, 50] ((2 : Nat) : Int) = some [[10, 20], [30, 40], [50]] ∧
    [[10, 20], [30, 40], [50]].flatten = [10, 20, 30, 40, 50] := by
  have h := divideInBatches_spec [10, 20, 30, 40, 50] 2 (by decide)
  have hch : chunks [10, 20, 30, 40, 50] 2 = [[10, 20], [30, 40], [50]] := by
    simp [chunks]
  refine ⟨by decide, ?_, by decide⟩
  rw [← hch]
  exact h.1

/-- Claim C10: the divideInBatches loop terminates exactly when the batch
size is positive or the collection is empty; with a non-positive batch size
and a non-empty collection the loop index never advances past the
collection, so no amount of fuel makes the loop finish. -/
theorem divideInBatches_total_iff {α : Type} (l : List α) (b : Int) :
    (∃ fuel r, divideInBatchesGo l b fuel 0 [] = some r) ↔ (0 < b ∨ l = []) := by
  constructor
  · intro h
    obtain ⟨fuel, r, hr⟩ := h
    by_contra hcon
    push_neg at hcon
    obtain ⟨hb, hl⟩ := hcon
    rw [divideInBatchesGo_none_of_nonpos l b (by omega) hl fuel 0 [] (by omega)] at hr
    exact absurd hr (by simp)
  · intro h
    rcases h with hb | hl
    · obtain ⟨nb, rfl⟩ : ∃ nb : Nat, b = ((nb : Nat) : Int) := ⟨b.toNat, by omega⟩
      refine ⟨l.length + 1, chunks l nb, ?_⟩
      have h := divideInBatchesGo_eq_chunks l nb (by omega) (l.length + 1) 0 []
        (by omega) (by push_cast; omega)
      simpa using h
    · subst hl
      exact ⟨1, [], rfl⟩

/-! ## withMaxLoops lemmas -/

theorem withMaxLoopsGo_all_fail {E A : Type} (f : Nat → E) (msg : String) (m : Nat) :
    ∀ (fuel loopCount calls waitMs : Nat), loopCount < m → m - loopCount ≤ fuel →
      withMaxLoopsGo (fun t => (Except.error (f t) : Except E A)) msg m fuel loopCount calls waitMs
        = some ⟨calls + (m - loopCount), waitMs + 500 * (m - loopCount - 1), [msg],
            Except.error (f (calls + (m - loopCount) - 1))⟩ := by
  intro fuel
  induction fuel with
  | zero => intro lc c w h1 h2; omega
  | succ fuel ih =>
    intro lc c w h1 h2
    rw [withMaxLoopsGo]
    dsimp only
    by_cases hcap : lc + 1 = m
    · rw [if_pos hcap]
      have hd : m - lc = 1 := by omega
      rw [hd]
      simp
    · rw [if_neg hcap]
      rw [ih (lc + 1) (c + 1) (w + 500) (by omega) (by omega)]
      have e1 : c + 1 + (m - (lc + 1)) = c + (m - lc) := by omega
      have e2 : w + 500 + 500 * (m - (lc + 1) - 1) = w + 500 * (m - lc - 1) := by omega
      rw [e1, e2]

theorem withMaxLoopsGo_first_success {E A : Type} (op : Nat → Except E A)
    (msg : String) (m : Nat) (a : A) :
    ∀ (t fuel loopCount calls waitMs : Nat),
      (∀ j, j < t → ∃ e, op (calls + j) = Except.error e) →
      op (calls + t) = Except.ok a →
      loopCount + t < m → t + 1 ≤ fuel →
      withMaxLoopsGo op msg m fuel loopCount calls waitMs
        = some ⟨calls + t + 1, waitMs + 500 * t, [], Except.ok a⟩ := by
  intro t
  induction t with
  | zero =>
    intro fuel lc c w _ hsucc _ hfuel
    cases fuel with
    | zero => omega
    | succ fuel =>
      rw [withMaxLoopsGo]
      have hc : c + 0 = c := by omega
      rw [hc] at hsucc
      rw [hsucc]
      dsimp only
      simp
  | succ t ih =>
    intro fuel lc c w hfail hsucc hcap hfuel
    cases fuel with
    | zero => omega
    | succ fuel =>
      rw [withMaxLoopsGo]
      obtain ⟨e, he⟩ := hfail 0 (by omega)
      have hc : c + 0 = c := by omega
      rw [hc] at he
      rw [he]
      dsimp only
      rw [if_neg (by omega)]
      have hfail' : ∀ j, j < t → ∃ e, op (c + 1 + j) = Except.error e := by
        intro j hj
        obtain ⟨e', he'⟩ := hfail (j + 1) (by omega)
        exact ⟨e', by rw [← he']; congr 1; omega⟩
      have hsucc' : op (c + 1 + t) = Except.ok a := by
        rw [← hsucc]; congr 1; omega
      rw [ih fuel (lc + 1) (c + 1) (w + 500) hfail' hsucc' (by omega) (by omega)]
      have e1 : c + 1 + t + 1 = c + (t + 1) + 1 := by omega
      have e2 : w + 500 + 500 * t = w + 500 * (t + 1) := by omega
      rw [e1, e2]

/-- Claim C3: for every maxLoops >= 1, when the wrapped operation fails on
every attempt, withMaxLoops invokes it exactly maxLoops times, waits a
fixed 500 ms after each failure except the last, logs the error label and
re-raises the last causing error; and when the operation first succeeds on
attempt k <= maxLoops (after k - 1 failures), withMaxLoops invokes it
exactly k times, waits 500 ms after each of the k - 1 failures, logs
nothing, and returns the operation's result. -/
theorem withMaxLoops_spec {E A : Type} (f : Nat → E) (op : Nat → Except E A)
    (msg : String) (m k : Nat) (a : A)
    (hm : 1 ≤ m) (hk1 : 1 ≤ k) (hkm : k ≤ m)
    (hsucc : op (k - 1) = Except.ok a)
    (hfail : ∀ j, j < k - 1 → ∃ e, op j = Except.error e) :
    withMaxLoops (fun t => (Except.error (f t) : Except E A)) msg m
      = some ⟨m, 500 * (m - 1), [msg], Except.error (f (m - 1))⟩ ∧
    withMaxLoops op msg m = some ⟨k, 500 * (k - 1), [], Except.ok a⟩ := by
  constructor
  · have h := @withMaxLoopsGo_all_fail E A f msg m m 0 0 0 (by omega) (by omega)
    simpa using h
  · have hfail0 : ∀ j, j < k - 1 → ∃ e, op (0 + j) = Except.error e := by
      intro j hj
      simpa using hfail j hj
    have hsucc0 : op (0 + (k - 1)) = Except.ok a := by simpa using hsucc
    have h := withMaxLoopsGo_first_success op msg m a (k - 1) m 0 0 0 hfail0 hsucc0
      (by omega) (by omega)
    unfold withMaxLoops
    rw [h]
    have e1 : 0 + (k - 1) + 1 = k := by omega
    have e2 : 0 + 500 * (k - 1) = 500 * (k - 1) := by omega
    rw [e1, e2]

/-- Witness for C3 at concrete inputs: an operation failing every time is
invoked 3 of 3 times, waits twice, and re-raises; an operation succeeding
on attempt 2 of 3 is invoked twice and its value is returned. -/
theorem withMaxLoops_spec_witness :
    withMaxLoops (fun t => (Except.error "boom" : Except String Nat)) "retry failed" 3
      = some ⟨3, 1000, ["retry failed"], Except.error "boom"⟩ ∧
    withMaxLoops (fun t => if t = 0 then Except.error "x" else Except.ok 7) "retry failed" 3
      = some ⟨2, 500, [], Except.ok 7⟩ := by
  have h := withMaxLoops_spec (fun _ => "boom")
    (fun t => if t = 0 then Except.error "x" else Except.ok 7)
    "retry failed" 3 2 7 (by omega) (by omega) (by omega) rfl
    (fun j hj => ⟨"x", by
      have hj0 : j = 0 := by omega
      rw [hj0]
      rfl⟩)
  exact ⟨by simpa using h.1, by simpa using h.2⟩

/-! ## String lemmas for the renderer -/

theorem string_data_append (a b : String) : (a ++ b).data = a.data ++ b.data := by
  cases a
  cases b
  rfl

theorem string_ext {a b : String} (h : a.data = b.data) : a = b := by
  cases a with
  | mk d1 =>
    cases b with
    | mk d2 => exact congrArg String.mk h

theorem string_append_assoc (a b c : String) : a ++ b ++ c = a ++ (b ++ c) := by
  apply string_ext
  simp [string_data_append]

theorem string_empty_append (a : String) : "" ++ a = a := by
  apply string_ext
  rw [string_data_append]
  simp

theorem string_append_empty (a : String) : a ++ "" = a := by
  apply string_ext
  rw [string_data_append]
  simp

theorem jsSlice_zero_neg2 {α : Type} (l : List α) :
    jsSlice l 0 (-2) = l.take (l.length - 2) := by
  unfold jsSlice
  dsimp only
  rw [if_neg (by omega : ¬ ((0 : Int) < 0)), if_pos (by omega : ((-2 : Int)) < 0)]
  have hs : (min (0 : Int) (l.length : Int)).toNat = 0 := by omega
  have he : ((max ((l.length : Int) + (-2)) 0) - min (0 : Int) (l.length : Int)).toNat
      = l.length - 2 := by omega
  rw [hs, he]
  rw [List.drop_zero]

theorem jsStringSlice_comma_drop (x : String) :
    jsStringSlice (x ++ ", ") 0 (-2) = x := by
  apply string_ext
  unfold jsStringSlice
  rw [jsSlice_zero_neg2]
  rw [string_data_append]
  have hdata : (", " : String).data = [',', ' '] := rfl
  rw [hdata]
  have hlen2 : (x.data ++ [',', ' ']).length - 2 = x.data.length := by simp
  rw [hlen2]
  exact List.take_left x.data [',', ' ']

theorem jsStringSlice_append_drop2 (a rest : String) (h : 2 ≤ rest.data.length) :
    jsStringSlice (a ++ rest) 0 (-2) = a ++ jsStringSlice rest 0 (-2) := by
  apply string_ext
  unfold jsStringSlice
  rw [jsSlice_zero_neg2, jsSlice_zero_neg2]
  rw [string_data_append, string_data_append]
  have hlen : (a.data ++ rest.data).length - 2 = a.data.length + (rest.data.length - 2) := by
    simp only [List.length_append]
    omega
  rw [hlen]
  have htake : (a.data ++ rest.data).take (a.data.length + (rest.data.length - 2))
      = a.data ++ rest.data.take (rest.data.length - 2) := by
    rw [List.take_append_eq_append_take]
    congr 1
    · rw [List.take_of_length_le]
      omega
    · congr 1
      omega
  rw [htake]

theorem foldl_comma_shift (arr : List String) :
    ∀ acc : String,
      arr.foldl (fun str subStr => str ++ subStr ++ ", ") acc
        = acc ++ arr.foldl (fun str subStr => str ++ subStr ++ ", ") "" := by
  induction arr with
  | nil =>
    intro acc
    simp only [List.foldl_nil]
    rw [string_append_empty]
  | cons x xs ih =>
    intro acc
    simp only [List.foldl_cons]
    rw [ih (acc ++ x ++ ", "), ih ("" ++ x ++ ", ")]
    rw [string_empty_append]
    rw [string_append_assoc, string_append_assoc, string_append_assoc]

theorem foldl_comma_length (arr : List String) (harr : arr ≠ []) :
    ∀ acc : String,
      2 ≤ (arr.foldl (fun str subStr => str ++ subStr ++ ", ") acc).data.length := by
  induction arr with
  | nil => exact absurd rfl harr
  | cons x xs ih =>
    intro acc
    simp only [List.foldl_cons]
    cases hxs : xs with
    | nil =>
      simp only [List.foldl_nil]
      rw [string_data_append]
      simp
      omega
    | cons y ys =>
      rw [← hxs]
      exact ih (by rw [hxs]; simp) (acc ++ x ++ ", ")

theorem arrayStringToString_eq_commaJoin (arr : List String) :
    arrayStringToString arr = commaJoin arr := by
  induction arr with
  | nil => rfl
  | cons x xs ih =>
    cases xs with
    | nil =>
      unfold arrayStringToString
      simp only [List.foldl_cons, List.foldl_nil]
      rw [string_empty_append]
      rw [jsStringSlice_comma_drop]
      rfl
    | cons y ys =>
      unfold arrayStringToString at ih ⊢
      rw [List.foldl_cons]
      rw [foldl_comma_shift (y :: ys) ("" ++ x ++ ", ")]
      rw [string_empty_append]
      rw [jsStringSlice_append_drop2 (x ++ ", ") _ (foldl_comma_length (y :: ys) (by simp) "")]
      rw [ih]
      rfl

/-! ## Map rendering (claim C5) -/

theorem mapEntryStrings_eq_map (entries : List SborMapEntry) :
    mapEntryStrings entries = entries.map mapEntryRendering := by
  induction entries with
  | nil => rfl
  | cons e rest ih =>
    cases e with
    | mk k v =>
      rw [mapEntryStrings, List.map_cons, ih]
      rfl

/-- Claim C5 counterexample: a Map value with no declared type names does
not render as the bare parenthesized entry list claimed; the source always
prepends the literal Map, and with declared type names it renders
Map<K, V>(...) with a comma and a space. -/
theorem parseNonFungibleData_map_cex :
    (parseNonFungibleData (Sbor.map none none none
        [SborMapEntry.mk (Sbor.string none "a") (Sbor.string none "b")])).value
      = "Map(a => b)" ∧
    (parseNonFungibleData (Sbor.map none none none
        [SborMapEntry.mk (Sbor.string none "a") (Sbor.string none "b")])).value
      ≠ "(a => b)" ∧
    (parseNonFungibleData (Sbor.map none (some "String") (some "U32")
        [SborMapEntry.mk (Sbor.string none "a") (Sbor.string none "b")])).value
      = "Map<String, U32>(a => b)" := by
  refine ⟨by decide, by decide, by decide⟩

/-- Claim C5 (amended): for every Map-kind Scrypto value, the parser
renders each entry as key, arrow, value (key first), comma-joins the
entries, wraps them in parentheses, and always prefixes the literal Map;
when the map declares both a truthy key type name and a truthy value type
name, the prefix extends to Map<K, V>. -/
theorem parseNonFungibleData_map_rendering (fn ktn vtn : Option String)
    (entries : List SborMapEntry) :
    (parseNonFungibleData (Sbor.map fn ktn vtn entries)).value
      = "Map" ++
        (if jsTruthy ktn && jsTruthy vtn then
          "<" ++ jsShow ktn ++ ", " ++ jsShow vtn ++ ">"
         else "") ++
        ("(" ++ commaJoin (entries.map mapEntryRendering) ++ ")") := by
  rw [parseNonFungibleData]
  dsimp only
  rw [arrayStringToString_eq_commaJoin, mapEntryStrings_eq_map]
  by_cases hc : (jsTruthy ktn && jsTruthy vtn) = true
  · rw [if_pos hc, if_pos hc]
    apply string_ext
    simp [string_data_append]
  · rw [if_neg hc, if_neg hc]
    apply string_ext
    simp [string_data_append]

/-! ## Non-fungible item reconstruction (claim C7) -/

theorem mapSet_ne_nil {α : Type} (m : List (String × α)) (k : String) (v : α) :
    mapSet m k v ≠ [] := by
  unfold mapSet
  cases hany : (m.any (fun p => p.1 == k)) with
  | true =>
    simp only [hany, if_true]
    cases m with
    | nil => simp at hany
    | cons p rest => simp
  | false =>
    simp only [hany, Bool.false_eq_true, if_false]
    simp

theorem nftFieldStep_name (st : NftFieldState) (f : Sbor) :
    (nftFieldStep st f).name
      = if (parseNonFungibleData f).name = "name" then
          some (parseNonFungibleData f).value
        else st.name := by
  unfold nftFieldStep
  by_cases h0 : (parseNonFungibleData f).name = ""
  · simp [h0]
  · by_cases h1 : (parseNonFungibleData f).name = "name"
    · simp [h0, h1]
    · by_cases h2 : (parseNonFungibleData f).name = "description"
      · simp [h0, h1, h2]
      · by_cases h3 : (parseNonFungibleData f).name = "key_image_url"
        · simp [h0, h1, h2, h3]
        · simp [h0, h1, h2, h3]

theorem nftFieldStep_description (st : NftFieldState) (f : Sbor) :
    (nftFieldStep st f).description
      = if (parseNonFungibleData f).name = "description" then
          some (parseNonFungibleData f).value
        else st.description := by
  unfold nftFieldStep
  by_cases h0 : (parseNonFungibleData f).name = ""
  · simp [h0]
  · by_cases h1 : (parseNonFungibleData f).name = "name"
    · simp [h0, h1]
    · by_cases h2 : (parseNonFungibleData f).name = "description"
      · simp [h0, h1, h2]
      · by_cases h3 : (parseNonFungibleData f).name = "key_image_url"
        · simp [h0, h1, h2, h3]
        · simp [h0, h1, h2, h3]

theorem nftFieldStep_imageUrl (st : NftFieldState) (f : Sbor) :
    (nftFieldStep st f).imageUrl
      = if (parseNonFungibleData f).name = "key_image_url" then
          some (parseNonFungibleData f).value
        else st.imageUrl := by
  unfold nftFieldStep
  by_cases h0 : (parseNonFungibleData f).name = ""
  · simp [h0]
  · by_cases h1 : (parseNonFungibleData f).name = "name"
    · simp [h0, h1]
    · by_cases h2 : (parseNonFungibleData f).name = "description"
      · simp [h0, h1, h2]
      · by_cases h3 : (parseNonFungibleData f).name = "key_image_url"
        · simp [h0, h1, h2, h3]
        · simp [h0, h1, h2, h3]

theorem nftFieldStep_data (st : NftFieldState) (f : Sbor) :
    (nftFieldStep st f).nonFungibleData
      = if isExtraField (parseNonFungibleData f) then
          mapSet st.nonFungibleData (parseNonFungibleData f).name
            (parseNonFungibleData f).value
        else st.nonFungibleData := by
  unfold nftFieldStep
  by_cases h0 : (parseNonFungibleData f).name = ""
  · simp [h0, isExtraField]
  · by_cases h1 : (parseNonFungibleData f).name = "name"
    · simp [h0, h1, isExtraField]
    · by_cases h2 : (parseNonFungibleData f).name = "description"
      · simp [h0, h1, h2, isExtraField]
      · by_cases h3 : (parseNonFungibleData f).name = "key_image_url"
        · simp [h0, h1, h2, h3, isExtraField]
        · simp [h0, h1, h2, h3, isExtraField]

theorem nftFold_name (fields : List Sbor) : ∀ st : NftFieldState,
    (fields.foldl nftFieldStep st).name
      = match promotedField "name" fields with
        | some v => some v
        | none => st.name := by
  induction fields with
  | nil => intro st; rfl
  | cons f fs ih =>
    intro st
    rw [List.foldl_cons, ih (nftFieldStep st f), promotedField]
    cases hp : promotedField "name" fs with
    | some v => rfl
    | none =>
      rw [nftFieldStep_name]
      by_cases h : (parseNonFungibleData f).name = "name"
      · simp [h]
      · simp [h]

theorem nftFold_description (fields : List Sbor) : ∀ st : NftFieldState,
    (fields.foldl nftFieldStep st).description
      = match promotedField "description" fields with
        | some v => some v
        | none => st.description := by
  induction fields with
  | nil => intro st; rfl
  | cons f fs ih =>
    intro st
    rw [List.foldl_cons, ih (nftFieldStep st f), promotedField]
    cases hp : promotedField "description" fs with
    | some v => rfl
    | none =>
      rw [nftFieldStep_description]
      by_cases h : (parseNonFungibleData f).name = "description"
      · simp [h]
      · simp [h]

theorem nftFold_imageUrl (fields : List Sbor) : ∀ st : NftFieldState,
    (fields.foldl nftFieldStep st).imageUrl
      = match promotedField "key_image_url" fields with
        | some v => some v
        | none => st.imageUrl := by
  induction fields with
  | nil => intro st; rfl
  | cons f fs ih =>
    intro st
    rw [List.foldl_cons, ih (nftFieldStep st f), promotedField]
    cases hp : promotedField "key_image_url" fs with
    | some v => rfl
    | none =>
      rw [nftFieldStep_imageUrl]
      by_cases h : (parseNonFungibleData f).name = "key_image_url"
      · simp [h]
      · simp [h]

theorem nftFold_dataGet (fields : List Sbor) (k : String) : ∀ st : NftFieldState,
    mapGet (fields.foldl nftFieldStep st).nonFungibleData k
      = match lastExtraValue k fields with
        | some v => some v
        | none => mapGet st.nonFungibleData k := by
  induction fields with
  | nil => intro st; rfl
  | cons f fs ih =>
    intro st
    rw [List.foldl_cons, ih (nftFieldStep st f), lastExtraValue]
    cases hp : lastExtraValue k fs with
    | some v => rfl
    | none =>
      rw [nftFieldStep_data]
      by_cases hex : isExtraField (parseNonFungibleData f) = true
      · rw [if_pos hex, mapGet_mapSet]
        by_cases hk : k = (parseNonFungibleData f).name
        · rw [if_pos hk]
          have hcond : isExtraField (parseNonFungibleData f) = true
              ∧ (parseNonFungibleData f).name = k := ⟨hex, hk.symm⟩
          simp [hcond.1, hcond.2]
        · rw [if_neg hk]
          have hcond : ¬ ((isExtraField (parseNonFungibleData f)) = true
              ∧ (parseNonFungibleData f).name = k) := by
            intro hcon
            exact hk hcon.2.symm
          simp only [if_neg hcond]
      · rw [if_neg hex]
        have hcond : ¬ ((isExtraField (parseNonFungibleData f)) = true
            ∧ (parseNonFungibleData f).name = k) := by
          intro hcon
          exact hex hcon.1
        simp only [if_neg hcond]

theorem nftFold_data_nil (fields : List Sbor) : ∀ st : NftFieldState,
    ((fields.foldl nftFieldStep st).nonFungibleData = []
      ↔ (st.nonFungibleData = [] ∧ hasExtraField fields = false)) := by
  induction fields with
  | nil =>
    intro st
    simp [hasExtraField]
  | cons f fs ih =>
    intro st
    rw [List.foldl_cons, ih (nftFieldStep st f), nftFieldStep_data]
    have hany : hasExtraField (f :: fs)
        = (isExtraField (parseNonFungibleData f) || hasExtraField fs) := by
      unfold hasExtraField
      rw [List.any_cons]
    rw [hany]
    by_cases hex : isExtraField (parseNonFungibleData f) = true
    · rw [if_pos hex, hex]
      constructor
      · intro hcon
        exact absurd hcon.1 (mapSet_ne_nil _ _ _)
      · intro hcon
        simp at hcon
    · have hbex : isExtraField (parseNonFungibleData f) = false := by
        cases hb : isExtraField (parseNonFungibleData f) with
        | true => exact absurd hb hex
        | false => rfl
      rw [if_neg hex, hbex]
      simp

theorem flatten_map_map {α β : Type} (g : α → β) (l : List (List α)) :
    (l.map (fun batch => batch.map g)).flatten = l.flatten.map g := by
  induction l with
  | nil => rfl
  | cons x xs ih =>
    rw [List.map_cons, List.flatten_cons, List.flatten_cons, ih, List.map_append]

/-- Claim C7: for every non-fungible id whose payload is a tuple,
getNonFungibleItemsFromIds runs every tuple field through the Scrypto
parser; the fields named name, description and key_image_url are promoted
to the item's dedicated attributes and never bucketed; every other truthy
field name is bucketed into the generic data map; and an item with zero
extra fields carries an absent (not empty) data map. -/
theorem getNonFungibleItemsFromIds_spec (oracle : String → NftItemData)
    (resourceAddress : String) (ids : List String)
    (it : NftItemData) (fn : Option String) (fields : List Sbor)
    (hdata : it.data = some (Sbor.tuple fn fields)) :
    getNonFungibleItemsFromIds oracle resourceAddress ids
      = some (ids.map (fun i => mkNonFungibleItem (oracle i))) ∧
    (mkNonFungibleItem it).id = it.nonFungibleId ∧
    (mkNonFungibleItem it).name = promotedField "name" fields ∧
    (mkNonFungibleItem it).description = promotedField "description" fields ∧
    (mkNonFungibleItem it).imageUrl = promotedField "key_image_url" fields ∧
    ((mkNonFungibleItem it).nonFungibleData = none ↔ hasExtraField fields = false) ∧
    (∀ m, (mkNonFungibleItem it).nonFungibleData = some m →
      ∀ k, mapGet m k = lastExtraValue k fields) := by
  constructor
  · unfold getNonFungibleItemsFromIds
    have h100 : (100 : Int) = ((100 : Nat) : Int) := by norm_num
    rw [h100, divideInBatches_eq_chunks ids 100 (by omega)]
    dsimp only
    have hmm : (chunks ids 100).map (fun batch => (batch.map oracle).map mkNonFungibleItem)
        = (chunks ids 100).map (fun batch => batch.map (fun i => mkNonFungibleItem (oracle i))) := by
      apply List.map_congr_left
      intro batch _
      rw [List.map_map]
      rfl
    rw [hmm, flatten_map_map (fun i => mkNonFungibleItem (oracle i)) (chunks ids 100)]
    rw [chunks_flatten (by omega) ids.length ids rfl]
  · unfold mkNonFungibleItem
    rw [hdata]
    dsimp only
    refine ⟨rfl, ?_, ?_, ?_, ?_, ?_⟩
    · rw [nftFold_name fields ⟨none, none, none, []⟩]
      cases promotedField "name" fields <;> rfl
    · rw [nftFold_description fields ⟨none, none, none, []⟩]
      cases promotedField "description" fields <;> rfl
    · rw [nftFold_imageUrl fields ⟨none, none, none, []⟩]
      cases promotedField "key_image_url" fields <;> rfl
    · have hnil := nftFold_data_nil fields ⟨none, none, none, []⟩
      by_cases hlen :
          (fields.foldl nftFieldStep ⟨none, none, none, []⟩).nonFungibleData.length > 0
      · rw [if_pos hlen]
        constructor
        · intro hcon
          exact absurd hcon (by simp)
        · intro hext
          have : (fields.foldl nftFieldStep ⟨none, none, none, []⟩).nonFungibleData = [] :=
            hnil.mpr ⟨rfl, hext⟩
          rw [this] at hlen
          simp at hlen
      · rw [if_neg hlen]
        have hempty : (fields.foldl nftFieldStep ⟨none, none, none, []⟩).nonFungibleData = [] := by
          cases hfd : (fields.foldl nftFieldStep ⟨none, none, none, []⟩).nonFungibleData with
          | nil => rfl
          | cons p rest =>
            rw [hfd] at hlen
            simp at hlen
        constructor
        · intro _
          exact (hnil.mp hempty).2
        · intro _
          rfl
    · intro m hm k
      by_cases hlen :
          (fields.foldl nftFieldStep ⟨none, none, none, []⟩).nonFungibleData.length > 0
      · rw [if_pos hlen] at hm
        have hm' : m = (fields.foldl nftFieldStep ⟨none, none, none, []⟩).nonFungibleData :=
          (Option.some.inj hm).symm
        rw [hm']
        rw [nftFold_dataGet fields k ⟨none, none, none, []⟩]
        cases lastExtraValue k fields <;> rfl
      · rw [if_neg hlen] at hm
        exact absurd hm (by simp)

/-- Witness for C7 at a concrete item: a tuple with a name field and one
extra field yields a promoted name and a singleton data map. -/
theorem getNonFungibleItemsFromIds_spec_witness :
    getNonFungibleItemsFromIds
        (fun i => ⟨i, some (Sbor.tuple none
          [Sbor.string (some "name") "Ape", Sbor.string (some "rank") "3"])⟩)
        "res" ["#1#"]
      = some [⟨"#1#", some "Ape", none, none, some [("rank", "3")]⟩] := by
  have h := getNonFungibleItemsFromIds_spec
    (fun i => ⟨i, some (Sbor.tuple none
      [Sbor.string (some "name") "Ape", Sbor.string (some "rank") "3"])⟩)
    "res" ["#1#"]
    ⟨"#1#", some (Sbor.tuple none
      [Sbor.string (some "name") "Ape", Sbor.string (some "rank") "3"])⟩
    none
    [Sbor.string (some "name") "Ape", Sbor.string (some "rank") "3"]
    rfl
  rw [h.1]
  rfl

/-! ## Transaction stream (claim C4) -/

theorem successesOf_cons (page : List CommittedTransactionInfo)
    (rest : List (List CommittedTransactionInfo)) :
    successesOf (page :: rest)
      = page.filter (fun tx => tx.transactionStatus == TransactionStatus.committedSuccess)
        ++ successesOf rest := rfl

theorem successesOf_append (a b : List (List CommittedTransactionInfo)) :
    successesOf (a ++ b) = successesOf a ++ successesOf b := by
  unfold successesOf
  rw [List.map_append, List.flatten_append]

theorem successesOf_status (pages : List (List CommittedTransactionInfo))
    (tx : CommittedTransactionInfo) (h : tx ∈ successesOf pages) :
    tx.transactionStatus = TransactionStatus.committedSuccess := by
  unfold successesOf at h
  obtain ⟨l, hl, htx⟩ := List.mem_flatten.mp h
  obtain ⟨page, _, hpage⟩ := List.mem_map.mp hl
  rw [← hpage] at htx
  have := List.of_mem_filter htx
  simpa using this

theorem streamGo_spec (stop : Nat) :
    ∀ (pages : List (List CommittedTransactionInfo))
      (acc : List CommittedTransactionInfo),
      (streamGo stop acc pages).2 ≤ pages.length ∧
      (streamGo stop acc pages).1 = acc ++ successesOf (pages.take (streamGo stop acc pages).2) ∧
      ((streamGo stop acc pages).2 < pages.length → stop ≤ (streamGo stop acc pages).1.length) ∧
      (∀ k, 1 ≤ k → k < (streamGo stop acc pages).2 →
        (acc ++ successesOf (pages.take k)).length < stop) ∧
      (pages ≠ [] → 1 ≤ (streamGo stop acc pages).2) := by
  intro pages
  induction pages with
  | nil =>
    intro acc
    refine ⟨by simp [streamGo], ?_, by simp [streamGo], ?_, ?_⟩
    · simp [streamGo, successesOf]
    · intro k h1 h2
      simp [streamGo] at h2
    · intro h
      exact absurd rfl h
  | cons page rest ih =>
    intro acc
    rw [streamGo]
    dsimp only
    by_cases hcond : rest ≠ [] ∧
        (acc ++ page.filter
          (fun tx => tx.transactionStatus == TransactionStatus.committedSuccess)).length < stop
    · rw [if_pos hcond]
      obtain ⟨ih1, ih2, ih3, ih4, _⟩ := ih (acc ++ page.filter
        (fun tx => tx.transactionStatus == TransactionStatus.committedSuccess))
      dsimp only
      refine ⟨?_, ?_, ?_, ?_, ?_⟩
      · simp only [List.length_cons]
        omega
      · rw [ih2]
        rw [List.take_succ_cons, successesOf_cons, List.append_assoc]
      · intro hlt
        simp only [List.length_cons] at hlt
        exact ih3 (by omega)
      · intro k hk1 hk2
        cases k with
        | zero => omega
        | succ k0 =>
          cases k0 with
          | zero =>
            have ht : (page :: rest).take (0 + 1) = [page] := rfl
            rw [ht, successesOf_cons]
            have h0 : successesOf [] = [] := rfl
            rw [h0, List.append_nil]
            exact hcond.2
          | succ k1 =>
            have hih := ih4 (k1 + 1) (by omega) (by omega)
            rw [List.take_succ_cons, successesOf_cons, ← List.append_assoc]
            exact hih
      · intro _
        omega
    · rw [if_neg hcond]
      dsimp only
      refine ⟨?_, ?_, ?_, ?_, ?_⟩
      · simp only [List.length_cons]
        omega
      · have ht : (page :: rest).take 1 = [page] := rfl
        rw [ht, successesOf_cons]
        have h0 : successesOf [] = [] := rfl
        rw [h0, List.append_nil]
      · intro hlt
        simp only [List.length_cons] at hlt
        have hrest : rest ≠ [] := by
          intro hr
          rw [hr] at hlt
          simp at hlt
        have hstop : ¬ ((acc ++ page.filter
            (fun tx => tx.transactionStatus == TransactionStatus.committedSuccess)).length < stop) := by
          intro hl
          exact hcond ⟨hrest, hl⟩
        omega
      · intro k hk1 hk2
        omega
      · intro _
        omega

/-- Claim C4 counterexample: passing maxCount = 0 does not cap the stream
at 0 items; 0 is falsy in JavaScript, so `max_amount ? max_amount :
Number.MAX_SAFE_INTEGER` disables the cap and every successful transaction
is returned. -/
theorem fullTransactionStream_cex :
    fullTransactionStream [[⟨none, TransactionStatus.committedSuccess, none⟩]] (some 0)
      = [⟨none, TransactionStatus.committedSuccess, none⟩] ∧
    (fullTransactionStream [[⟨none, TransactionStatus.committedSuccess, none⟩]]
      (some 0)).length ≠ 0 := by
  refine ⟨by decide, by decide⟩

/-- Claim C4 (amended): for every stream of pages and every maxCount >= 1,
fullTransactionStream returns only CommittedSuccess transactions, returns
the first maxCount successes (slicing the final fetched batch when it
overshoots), hence exactly maxCount items whenever at least that many
successes exist; and the cursor loop stops at the first page after which
maxCount results are accumulated, or at stream exhaustion. (For maxCount =
0, a falsy value in JavaScript, the cap is disabled; see the
counterexample.) -/
theorem fullTransactionStream_spec (pages : List (List CommittedTransactionInfo))
    (m : Nat) (hm : 1 ≤ m) :
    fullTransactionStream pages (some m) = (successesOf pages).take m ∧
    (∀ tx ∈ fullTransactionStream pages (some m),
      tx.transactionStatus = TransactionStatus.committedSuccess) ∧
    (m ≤ (successesOf pages).length → (fullTransactionStream pages (some m)).length = m) ∧
    (streamGo m [] pages).2 ≤ pages.length ∧
    (∀ k, 1 ≤ k → k < (streamGo m [] pages).2 →
      (successesOf (pages.take k)).length < m) ∧
    ((successesOf (pages.take (streamGo m [] pages).2)).length < m →
      (streamGo m [] pages).2 = pages.length) := by
  obtain ⟨h1, h2, h3, h4, _⟩ := streamGo_spec m pages []
  have hstop : (match some m with
      | some mm => if mm = 0 then maxSafeInteger else mm
      | none => maxSafeInteger) = m := by
    have : ¬ (m = 0) := by omega
    simp [this]
  have hmain : fullTransactionStream pages (some m) = (successesOf pages).take m := by
    unfold fullTransactionStream
    rw [hstop]
    rw [jsSlice_zero_nat]
    rw [h2]
    simp only [List.nil_append]
    by_cases hend : (streamGo m [] pages).2 < pages.length
    · have hlen := h3 hend
      rw [h2] at hlen
      simp only [List.nil_append] at hlen
      have hsplit : successesOf pages
          = successesOf (pages.take (streamGo m [] pages).2)
            ++ successesOf (pages.drop (streamGo m [] pages).2) := by
        rw [← successesOf_append, List.take_append_drop]
      rw [hsplit]
      rw [List.take_append_eq_append_take]
      have hz : m - (successesOf (pages.take (streamGo m [] pages).2)).length = 0 := by
        omega
      rw [hz]
      simp
    · have heq : (streamGo m [] pages).2 = pages.length := by omega
      rw [heq, List.take_length]
  refine ⟨hmain, ?_, ?_, h1, ?_, ?_⟩
  · intro tx htx
    rw [hmain] at htx
    exact successesOf_status pages tx (List.mem_of_mem_take htx)
  · intro hle
    rw [hmain, List.length_take]
    omega
  · intro k hk1 hk2
    have := h4 k hk1 hk2
    simpa using this
  · intro hlt
    by_contra hne
    have hend : (streamGo m [] pages).2 < pages.length := by omega
    have hlen := h3 hend
    rw [h2] at hlen
    simp only [List.nil_append] at hlen
    omega

/-- Witness for C4 at a concrete stream: two pages holding three successes
and one failure, maxCount 2; exactly the first two successes come back. -/
theorem fullTransactionStream_spec_witness :
    (1 : Nat) ≤ 2 ∧
    fullTransactionStream
        [[⟨some "a", TransactionStatus.committedSuccess, none⟩,
          ⟨some "b", TransactionStatus.committedFailure, some "err"⟩],
         [⟨some "c", TransactionStatus.committedSuccess, none⟩,
          ⟨some "d", TransactionStatus.committedSuccess, none⟩]] (some 2)
      = [⟨some "a", TransactionStatus.committedSuccess, none⟩,
         ⟨some "c", TransactionStatus.committedSuccess, none⟩] := by
  have h := fullTransactionStream_spec
    [[⟨some "a", TransactionStatus.committedSuccess, none⟩,
      ⟨some "b", TransactionStatus.committedFailure, some "err"⟩],
     [⟨some "c", TransactionStatus.committedSuccess, none⟩,
      ⟨some "d", TransactionStatus.committedSuccess, none⟩]] 2 (by omega)
  refine ⟨by omega, ?_⟩
  rw [h.1]
  decide

/-! ## Transaction submission (claim C8) -/

theorem pollStatusGo_first (statusSeq : Nat → TransactionStatus) :
    ∀ (n calls : Nat),
      statusSeq (calls + n) ≠ TransactionStatus.pending →
      (∀ j, j < n → statusSeq (calls + j) = TransactionStatus.pending) →
      pollStatusGo statusSeq (n + 1) calls = some (calls + n + 1) := by
  intro n
  induction n with
  | zero =>
    intro calls hn _
    rw [pollStatusGo]
    have h0 : calls + 0 = calls := by omega
    rw [h0] at hn
    rw [if_neg hn]
  | succ n ih =>
    intro calls hn hall
    rw [pollStatusGo]
    have hp : statusSeq calls = TransactionStatus.pending := by
      have := hall 0 (by omega)
      simpa using this
    rw [if_pos hp]
    have hn' : statusSeq (calls + 1 + n) ≠ TransactionStatus.pending := by
      have e : calls + 1 + n = calls + (n + 1) := by omega
      rw [e]
      exact hn
    have hall' : ∀ j, j < n → statusSeq (calls + 1 + j) = TransactionStatus.pending := by
      intro j hj
      have e : calls + 1 + j = calls + (j + 1) := by omega
      rw [e]
      exact hall (j + 1) (by omega)
    rw [ih (calls + 1) hn' hall']
    have e : calls + 1 + n + 1 = calls + (n + 1) + 1 := by omega
    rw [e]

/-- Claim C8: submitManifest polls the transaction status until it is no
longer Pending (one poll per status response, stopping at the first
non-Pending one), then returns the committed transaction record to the
caller regardless of its terminal status; a failed transaction is returned
as a value carrying its status and error message (and logged), never
raised. -/
theorem submitManifest_spec (statusSeq : Nat → TransactionStatus)
    (committed : CommittedTransactionInfo) (n : Nat)
    (hn : statusSeq n ≠ TransactionStatus.pending)
    (hall : ∀ j, j < n → statusSeq j = TransactionStatus.pending) :
    submitManifest statusSeq committed (n + 1)
      = some ⟨n + 1,
          if committed.transactionStatus ≠ TransactionStatus.committedSuccess then
            ["Transaction " ++ jsShow committed.intentHash ++ " failed with error: "
               ++ jsShow committed.errorMessage]
          else ["Transaction " ++ jsShow committed.intentHash ++ " succeeded!"],
          committed⟩ := by
  unfold submitManifest
  rw [pollStatusGo_first statusSeq n 0 (by simpa using hn)
    (fun j hj => by simpa using hall j hj)]
  dsimp only
  have e : 0 + n + 1 = n + 1 := by omega
  rw [e]

/-- Witness for C8 at concrete inputs: two Pending polls, then a
CommittedFailure; the failed record is returned as a value with its error
message, after exactly three polls. -/
theorem submitManifest_spec_witness :
    submitManifest
        (fun k => if k < 2 then TransactionStatus.pending
                  else TransactionStatus.committedFailure)
        ⟨some "txid_1", TransactionStatus.committedFailure, some "assertion failed"⟩ 3
      = some ⟨3, ["Transaction txid_1 failed with error: assertion failed"],
          ⟨some "txid_1", TransactionStatus.committedFailure, some "assertion failed"⟩⟩ := by
  show submitManifest _ _ (2 + 1) = _
  rw [submitManifest_spec
    (fun k => if k < 2 then TransactionStatus.pending
              else TransactionStatus.committedFailure)
    ⟨some "txid_1", TransactionStatus.committedFailure, some "assertion failed"⟩
    2 (by decide)
    (fun j hj => by
      have hj2 : j = 0 ∨ j = 1 := by omega
      rcases hj2 with h | h <;> rw [h] <;> rfl)]
  decide

/-! ## NFT global id codec (claim C9) -/

theorem string_mk_data (s : String) : String.mk s.data = s := by
  cases s
  rfl

theorem jsIndex_ne_null (parts : List String) (i : Nat) :
    jsIndex parts i ≠ JsVal.nullVal := by
  unfold jsIndex
  cases parts[i]? with
  | none => simp
  | some s => simp

theorem splitOnCharAux_not_mem (sep : Char) (l : List Char) (h : sep ∉ l) :
    splitOnCharAux sep l = [l] := by
  induction l with
  | nil => rfl
  | cons c cs ih =>
    rw [splitOnCharAux]
    have hc : ¬ c = sep := by
      intro e
      exact h (by rw [e]; exact List.mem_cons_self _ _)
    rw [if_neg hc]
    rw [ih (fun hm => h (List.mem_cons_of_mem _ hm))]

theorem splitOnCharAux_append (sep : Char) (r l : List Char) (hr : sep ∉ r) :
    splitOnCharAux sep (r ++ sep :: l) = r :: splitOnCharAux sep l := by
  induction r with
  | nil =>
    simp only [List.nil_append]
    rw [splitOnCharAux]
    rw [if_pos rfl]
  | cons c cs ih =>
    rw [List.cons_append, splitOnCharAux]
    have hc : ¬ c = sep := by
      intro e
      exact hr (by rw [e]; exact List.mem_cons_self _ _)
    rw [if_neg hc]
    rw [ih (fun hm => hr (List.mem_cons_of_mem _ hm))]

/-- Claim C9 counterexample: "a:b:c" has the form r + ":" + l with r = "a"
colon-free and l = "b:c", yet fromGlobalId keeps only the first two split
parts, so re-encoding yields "a:b", not the original input: fromGlobalId
is not a left inverse of globalId on that input. -/
theorem fromGlobalId_cex :
    fromGlobalId "a:b:c" = Except.ok ⟨JsVal.str "a", JsVal.str "b"⟩ ∧
    nftGlobalId ⟨JsVal.str "a", JsVal.str "b"⟩ = "a:b" ∧
    ("a:b" : String) ≠ "a:b:c" ∧
    ("a" : String) ++ ":" ++ "b:c" = "a:b:c" ∧
    ¬ ':' ∈ ("a" : String).data := by
  refine ⟨by rfl, by rfl, by decide, by decide, by decide⟩

/-- Claim C9 (amended): fromGlobalId never throws, because array indexing
past the end yields undefined, which the null-check does not catch; an
input with no colon yields an NFT whose local id is undefined; and for
inputs r + ":" + l where NEITHER r NOR l contains a colon, fromGlobalId
inverts globalId. -/
theorem fromGlobalId_spec (s s2 r l : String)
    (hs2 : ':' ∉ s2.data) (hr : ':' ∉ r.data) (hl : ':' ∉ l.data) :
    (∃ nft, fromGlobalId s = Except.ok nft) ∧
    fromGlobalId s2 = Except.ok ⟨JsVal.str s2, JsVal.undefinedVal⟩ ∧
    fromGlobalId (r ++ ":" ++ l) = Except.ok ⟨JsVal.str r, JsVal.str l⟩ ∧
    nftGlobalId ⟨JsVal.str r, JsVal.str l⟩ = r ++ ":" ++ l := by
  refine ⟨?_, ?_, ?_, rfl⟩
  · unfold fromGlobalId
    rw [if_pos ⟨jsIndex_ne_null _ 0, jsIndex_ne_null _ 1⟩]
    exact ⟨_, rfl⟩
  · unfold fromGlobalId
    have hsplit : jsSplit s2 ':' = [s2] := by
      unfold jsSplit
      rw [splitOnCharAux_not_mem ':' s2.data hs2]
      rw [List.map_cons, List.map_nil, string_mk_data]
    rw [hsplit]
    rw [if_pos ⟨jsIndex_ne_null _ 0, jsIndex_ne_null _ 1⟩]
    rfl
  · unfold fromGlobalId
    have hdata : (r ++ ":" ++ l).data = r.data ++ ':' :: l.data := by
      rw [string_data_append, string_data_append]
      have hcol : (":" : String).data = [':'] := rfl
      rw [hcol, List.append_assoc]
      rfl
    have hsplit : jsSplit (r ++ ":" ++ l) ':' = [r, l] := by
      unfold jsSplit
      rw [hdata]
      rw [splitOnCharAux_append ':' r.data l.data hr]
      rw [splitOnCharAux_not_mem ':' l.data hl]
      rw [List.map_cons, List.map_cons, List.map_nil, string_mk_data, string_mk_data]
    rw [hsplit]
    rw [if_pos ⟨jsIndex_ne_null _ 0, jsIndex_ne_null _ 1⟩]
    rfl

/-- Witness for C9 at concrete inputs. -/
theorem fromGlobalId_spec_witness :
    fromGlobalId "noColon" = Except.ok ⟨JsVal.str "noColon", JsVal.undefinedVal⟩ ∧
    fromGlobalId "res:id1" = Except.ok ⟨JsVal.str "res", JsVal.str "id1"⟩ ∧
    nftGlobalId ⟨JsVal.str "res", JsVal.str "id1"⟩ = "res:id1" := by
  have h := fromGlobalId_spec "x" "noColon" "res" "id1" (by decide) (by decide) (by decide)
  have e : ("res" : String) ++ ":" ++ "id1" = "res:id1" := by decide
  exact ⟨h.2.1, e ▸ h.2.2.1, h.2.2.2.trans e⟩

/-! ## Resource information aggregation (claim C1) -/

theorem processEntityItem_eq (additionalMetadata : Option (List String))
    (m : List (String × ResourceInformation)) (addr : String)
    (item : EntityDetailsData) :
    processEntityItem additionalMetadata m addr item
      = match entityResourceInformation additionalMetadata addr item with
        | Except.error e => Except.error e
        | Except.ok none => Except.ok m
        | Except.ok (some info) => Except.ok (mapSet m addr info) := rfl

theorem resolvedInfo_isSome (additionalMetadata : Option (List String))
    (addr : String) (item : EntityDetailsData) :
    (resolvedInfo additionalMetadata addr item).isSome
      = resolvesNameB additionalMetadata item := by
  obtain ⟨det, md⟩ := item
  unfold resolvedInfo entityResourceInformation resolvesNameB
  dsimp only
  cases det with
  | none => rfl
  | some dt =>
    dsimp only
    cases hscan : scanMetadata additionalMetadata md with
    | error e => rfl
    | ok st =>
      dsimp only
      cases hname : st.name with
      | none => rfl
      | some nm =>
        by_cases h : nm = ""
        · simp [h]
        · have hb : (nm != "") = true := by simpa using h
          cases dt <;> simp [h, hb]

theorem limitedGo_spec (oracle : String → EntityDetailsData)
    (additionalMetadata : Option (List String)) :
    ∀ (batch : List String) (m r : List (String × ResourceInformation)),
      limitedResourcesInformationGo oracle additionalMetadata batch m = Except.ok r →
      (∀ a, mapGet r a
        = if a ∈ batch ∧ (resolvedInfo additionalMetadata a (oracle a)).isSome = true
          then resolvedInfo additionalMetadata a (oracle a)
          else mapGet m a) ∧
      ((mapKeys m).Nodup → (mapKeys r).Nodup) := by
  intro batch
  induction batch with
  | nil =>
    intro m r hr
    rw [limitedResourcesInformationGo] at hr
    have hmr : m = r := by
      simpa using hr
    subst hmr
    refine ⟨?_, fun h => h⟩
    intro a
    simp
  | cons addr rest ih =>
    intro m r hr
    rw [limitedResourcesInformationGo, processEntityItem_eq] at hr
    cases heri : entityResourceInformation additionalMetadata addr (oracle addr) with
    | error e =>
      rw [heri] at hr
      exact absurd hr (by simp)
    | ok oinfo =>
      rw [heri] at hr
      cases oinfo with
      | none =>
        dsimp only at hr
        have hres : resolvedInfo additionalMetadata addr (oracle addr) = none := by
          unfold resolvedInfo
          rw [heri]
        obtain ⟨ha, hnd⟩ := ih m r hr
        refine ⟨?_, hnd⟩
        intro a
        rw [ha a]
        by_cases hmem : a ∈ rest ∧
            (resolvedInfo additionalMetadata a (oracle a)).isSome = true
        · rw [if_pos hmem, if_pos ⟨List.mem_cons_of_mem _ hmem.1, hmem.2⟩]
        · rw [if_neg hmem]
          by_cases hcond : a ∈ addr :: rest ∧
              (resolvedInfo additionalMetadata a (oracle a)).isSome = true
          · exfalso
            rcases List.mem_cons.mp hcond.1 with he | he
            · have := hcond.2
              rw [he, hres] at this
              simp at this
            · exact hmem ⟨he, hcond.2⟩
          · rw [if_neg hcond]
      | some info =>
        dsimp only at hr
        have hres : resolvedInfo additionalMetadata addr (oracle addr) = some info := by
          unfold resolvedInfo
          rw [heri]
        obtain ⟨ha, hnd⟩ := ih (mapSet m addr info) r hr
        refine ⟨?_, fun hm => hnd (mapKeys_mapSet_nodup m addr info hm)⟩
        intro a
        rw [ha a]
        by_cases hmem : a ∈ rest ∧
            (resolvedInfo additionalMetadata a (oracle a)).isSome = true
        · rw [if_pos hmem, if_pos ⟨List.mem_cons_of_mem _ hmem.1, hmem.2⟩]
        · rw [if_neg hmem, mapGet_mapSet]
          by_cases he : a = addr
          · rw [if_pos he]
            have hmem2 : a ∈ addr :: rest := by
              rw [he]
              exact List.mem_cons_self _ _
            have hsome : (resolvedInfo additionalMetadata a (oracle a)).isSome = true := by
              rw [he, hres]
              rfl
            rw [if_pos ⟨hmem2, hsome⟩, he, hres]
          · rw [if_neg he]
            by_cases hcond : a ∈ addr :: rest ∧
                (resolvedInfo additionalMetadata a (oracle a)).isSome = true
            · exfalso
              rcases List.mem_cons.mp hcond.1 with he2 | he2
              · exact he he2
              · exact hmem ⟨he2, hcond.2⟩
            · rw [if_neg hcond]

theorem mergeFold_nodup (items : List (String × ResourceInformation)) :
    ∀ rm, (mapKeys rm).Nodup →
      (mapKeys (items.foldl (fun acc kv => mapSet acc kv.1 kv.2) rm)).Nodup := by
  induction items with
  | nil => intro rm h; exact h
  | cons kv rest ih =>
    intro rm h
    rw [List.foldl_cons]
    exact ih (mapSet rm kv.1 kv.2) (mapKeys_mapSet_nodup rm kv.1 kv.2 h)

theorem mergeFold_get (items : List (String × ResourceInformation)) :
    ∀ (rm : List (String × ResourceInformation)) (a : String),
      (mapKeys items).Nodup →
      mapGet (items.foldl (fun acc kv => mapSet acc kv.1 kv.2) rm) a
        = match mapGet items a with
          | some v => some v
          | none => mapGet rm a := by
  induction items with
  | nil => intro rm a _; rfl
  | cons kv rest ih =>
    intro rm a hnd
    have hnd_parts : kv.1 ∉ mapKeys rest ∧ (mapKeys rest).Nodup := by
      have hmk : mapKeys (kv :: rest) = kv.1 :: mapKeys rest := rfl
      rw [hmk] at hnd
      exact List.nodup_cons.mp hnd
    rw [List.foldl_cons, ih (mapSet rm kv.1 kv.2) a hnd_parts.2, mapGet_cons]
    cases hpk : (kv.1 == a) with
    | true =>
      have he : kv.1 = a := by simpa using hpk
      have hnone : mapGet rest a = none := by
        cases hg : mapGet rest a with
        | none => rfl
        | some v =>
          exfalso
          have hmem : a ∈ mapKeys rest := (mapGet_isSome_iff_mem rest a).mp (by rw [hg]; rfl)
          apply hnd_parts.1
          rw [he]
          exact hmem
      rw [hnone, mapGet_mapSet, if_pos he.symm]
      simp
    | false =>
      simp only [Bool.false_eq_true, if_false]
      cases hg : mapGet rest a with
      | some v => rfl
      | none =>
        rw [mapGet_mapSet]
        have hne : ¬ a = kv.1 := by
          intro e
          rw [e] at hpk
          simp at hpk
        rw [if_neg hne]

theorem mergeBatchesGo_spec (oracle : String → EntityDetailsData)
    (additionalMetadata : Option (List String)) :
    ∀ (batches : List (List String)) (rm r : List (String × ResourceInformation)),
      mergeBatchesGo oracle additionalMetadata batches rm = Except.ok r →
      (mapKeys rm).Nodup →
      (∀ a, mapGet r a
        = if a ∈ batches.flatten ∧ (resolvedInfo additionalMetadata a (oracle a)).isSome = true
          then resolvedInfo additionalMetadata a (oracle a)
          else mapGet rm a) ∧
      (mapKeys r).Nodup := by
  intro batches
  induction batches with
  | nil =>
    intro rm r hr hnd
    rw [mergeBatchesGo] at hr
    have hmr : rm = r := by simpa using hr
    subst hmr
    refine ⟨?_, hnd⟩
    intro a
    simp
  | cons batch rest ih =>
    intro rm r hr hnd
    rw [mergeBatchesGo] at hr
    cases hlim : limitedResourcesInformation oracle additionalMetadata batch with
    | error e =>
      rw [hlim] at hr
      exact absurd hr (by simp)
    | ok items =>
      rw [hlim] at hr
      dsimp only at hr
      unfold limitedResourcesInformation at hlim
      obtain ⟨hbatch, hbnodup⟩ := limitedGo_spec oracle additionalMetadata batch [] items hlim
      have hitems_nodup : (mapKeys items).Nodup := hbnodup (by simp [mapKeys])
      obtain ⟨hrest, hrnodup⟩ := ih (items.foldl (fun acc kv => mapSet acc kv.1 kv.2) rm) r hr
        (mergeFold_nodup items rm hnd)
      refine ⟨?_, hrnodup⟩
      intro a
      rw [hrest a]
      by_cases hmem : a ∈ rest.flatten ∧
          (resolvedInfo additionalMetadata a (oracle a)).isSome = true
      · have hmem2 : a ∈ (batch :: rest).flatten := by
          rw [List.flatten_cons]
          exact List.mem_append.mpr (Or.inr hmem.1)
        rw [if_pos hmem, if_pos ⟨hmem2, hmem.2⟩]
      · rw [if_neg hmem, mergeFold_get items rm a hitems_nodup, hbatch a]
        by_cases hcond2 : a ∈ batch ∧
            (resolvedInfo additionalMetadata a (oracle a)).isSome = true
        · rw [if_pos hcond2]
          have hmem2 : a ∈ (batch :: rest).flatten := by
            rw [List.flatten_cons]
            exact List.mem_append.mpr (Or.inl hcond2.1)
          rw [if_pos ⟨hmem2, hcond2.2⟩]
          cases hres : resolvedInfo additionalMetadata a (oracle a) with
          | some ri => rfl
          | none =>
            exfalso
            have := hcond2.2
            rw [hres] at this
            simp at this
        · rw [if_neg hcond2]
          have hcond3 : ¬ (a ∈ (batch :: rest).flatten ∧
              (resolvedInfo additionalMetadata a (oracle a)).isSome = true) := by
            intro hcon
            rw [List.flatten_cons] at hcon
            rcases List.mem_append.mp hcon.1 with hx | hx
            · exact hcond2 ⟨hx, hcon.2⟩
            · exact hmem ⟨hx, hcon.2⟩
          rw [if_neg hcond3]
          rfl

theorem keys_eq_singleton (keys : List String) (a : String)
    (hnd : keys.Nodup) (hmem : ∀ x, x ∈ keys ↔ x = a) : keys = [a] := by
  cases keys with
  | nil =>
    exfalso
    exact (by simp : a ∉ ([] : List String)) ((hmem a).mpr rfl)
  | cons k ks =>
    have hk : k = a := (hmem k).mp (List.mem_cons_self _ _)
    cases ks with
    | nil => rw [hk]
    | cons k2 ks2 =>
      exfalso
      have hk2 : k2 = a := (hmem k2).mp (List.mem_cons_of_mem _ (List.mem_cons_self _ _))
      have : k ∉ k2 :: ks2 := (List.nodup_cons.mp hnd).1
      exact this (by rw [hk, ← hk2]; exact List.mem_cons_self _ _)

/-- Claim C1 counterexample: of two queried resource addresses, res_b
resolves a name metadata entry in the claim's sense (a plain string value,
here the empty string), yet the returned map contains only res_a: the
empty string is falsy in JavaScript, so `if (name)` silently drops the
entity, and the result has size 1 where the claim requires an entry for
every address resolving a name entry. -/
theorem getResourcesInformation_cex :
    resolvesNameSpec
        ⟨some ResourceDetailsType.fungibleResource,
          [⟨"name", Sbor.string none ""⟩]⟩ = true ∧
    getResourcesInformation
        (fun addr => if addr = "res_a"
          then ⟨some ResourceDetailsType.fungibleResource,
            [⟨"name", Sbor.string none "Radix"⟩]⟩
          else ⟨some ResourceDetailsType.fungibleResource,
            [⟨"name", Sbor.string none ""⟩]⟩)
        ["res_a", "res_b"] none
      = Except.ok
          [("res_a", ResourceInformation.fungible ⟨"Radix", "res_a", none, none, none, []⟩)] ∧
    mapGet [("res_a", ResourceInformation.fungible
        ⟨"Radix", "res_a", none, none, none, []⟩)] "res_b" = none ∧
    [("res_a", ResourceInformation.fungible
        ⟨"Radix", "res_a", none, none, none, []⟩)].length = 1 := by
  refine ⟨by decide, by rfl, by rfl, by rfl⟩

/-- Claim C1 (amended): whenever getResourcesInformation returns a map
(it throws when a recognised metadata entry is an Enum with zero fields),
that map contains an entry exactly for those queried addresses whose
entity details are present and resolve a truthy name (a nonempty string,
since the empty string is falsy in JavaScript and is silently dropped);
in particular, for two queried addresses of which exactly one resolves a
truthy name, the result map has size exactly 1 and contains only the
resolvable one. -/
theorem getResourcesInformation_spec (oracle : String → EntityDetailsData)
    (additionalMetadata : Option (List String)) (addrs : List String)
    (m : List (String × ResourceInformation)) (a b : String)
    (m2 : List (String × ResourceInformation))
    (hok : getResourcesInformation oracle addrs additionalMetadata = Except.ok m)
    (hab : a ≠ b)
    (hra : resolvesNameB additionalMetadata (oracle a) = true)
    (hrb : resolvesNameB additionalMetadata (oracle b) = false)
    (hok2 : getResourcesInformation oracle [a, b] additionalMetadata = Except.ok m2) :
    (∀ x, (mapGet m x).isSome = true ↔
      (x ∈ addrs ∧ resolvesNameB additionalMetadata (oracle x) = true)) ∧
    m2.length = 1 ∧
    (mapGet m2 a).isSome = true ∧
    mapGet m2 b = none := by
  have hcast : ((20 : Nat) : Int) = (20 : Int) := by norm_num
  have hchunks := divideInBatches_eq_chunks addrs 20 (by omega)
  rw [hcast] at hchunks
  unfold getResourcesInformation at hok
  rw [hchunks] at hok
  dsimp only at hok
  obtain ⟨hchar, _⟩ := mergeBatchesGo_spec oracle additionalMetadata (chunks addrs 20) [] m
    hok (by simp [mapKeys])
  have hflat : (chunks addrs 20).flatten = addrs :=
    chunks_flatten (by omega) addrs.length addrs rfl
  have hchunks2 := divideInBatches_eq_chunks [a, b] 20 (by omega)
  rw [hcast] at hchunks2
  unfold getResourcesInformation at hok2
  rw [hchunks2] at hok2
  dsimp only at hok2
  obtain ⟨hchar2, hnodup2⟩ := mergeBatchesGo_spec oracle additionalMetadata (chunks [a, b] 20)
    [] m2 hok2 (by simp [mapKeys])
  have hflat2 : (chunks [a, b] 20).flatten = [a, b] :=
    chunks_flatten (by omega) _ _ rfl
  have hmember : ∀ x, (mapGet m x).isSome = true ↔
      (x ∈ addrs ∧ resolvesNameB additionalMetadata (oracle x) = true) := by
    intro x
    rw [hchar x, hflat]
    by_cases hcond : x ∈ addrs ∧ (resolvedInfo additionalMetadata x (oracle x)).isSome = true
    · rw [if_pos hcond]
      constructor
      · intro _
        refine ⟨hcond.1, ?_⟩
        rw [← resolvedInfo_isSome additionalMetadata x (oracle x)]
        exact hcond.2
      · intro _
        exact hcond.2
    · rw [if_neg hcond]
      constructor
      · intro hfalse
        exact absurd hfalse (by simp [mapGet])
      · intro hx
        exfalso
        apply hcond
        refine ⟨hx.1, ?_⟩
        rw [resolvedInfo_isSome]
        exact hx.2
  have hm2mem : ∀ x, (mapGet m2 x).isSome = true ↔ x = a := by
    intro x
    rw [hchar2 x, hflat2]
    by_cases hcond : x ∈ [a, b] ∧ (resolvedInfo additionalMetadata x (oracle x)).isSome = true
    · rw [if_pos hcond]
      constructor
      · intro _
        rcases List.mem_cons.mp hcond.1 with he | he
        · exact he
        · exfalso
          have hxb : x = b := by simpa using he
          have hcon := hcond.2
          rw [resolvedInfo_isSome, hxb, hrb] at hcon
          exact absurd hcon (by simp)
      · intro _
        exact hcond.2
    · rw [if_neg hcond]
      constructor
      · intro hfalse
        exact absurd hfalse (by simp [mapGet])
      · intro he
        exfalso
        apply hcond
        constructor
        · rw [he]
          exact List.mem_cons_self _ _
        · rw [resolvedInfo_isSome, he]
          exact hra
  refine ⟨hmember, ?_, ?_, ?_⟩
  · have hkeys : mapKeys m2 = [a] :=
      keys_eq_singleton (mapKeys m2) a hnodup2
        (fun x => by rw [← mapGet_isSome_iff_mem]; exact hm2mem x)
    have hlen : m2.length = (mapKeys m2).length := by
      unfold mapKeys
      rw [List.length_map]
    rw [hlen, hkeys]
    rfl
  · exact (hm2mem a).mpr rfl
  · rw [hchar2 b, hflat2]
    have hcond : ¬ (b ∈ [a, b] ∧ (resolvedInfo additionalMetadata b (oracle b)).isSome = true) := by
      intro hcon
      have := hcon.2
      rw [resolvedInfo_isSome, hrb] at this
      exact absurd this (by simp)
    rw [if_neg hcond]
    rfl

/-- Witness for C1 at concrete inputs: res_a resolves the name Radix,
res_b resolves only an empty (falsy) name; the returned map holds exactly
the res_a entry. -/
theorem getResourcesInformation_spec_witness :
    ([("res_a", ResourceInformation.fungible
        ⟨"Radix", "res_a", none, none, none, []⟩)].length = 1) ∧
    (mapGet [("res_a", ResourceInformation.fungible
        ⟨"Radix", "res_a", none, none, none, []⟩)] "res_a").isSome = true ∧
    mapGet [("res_a", ResourceInformation.fungible
        ⟨"Radix", "res_a", none, none, none, []⟩)] "res_b" = none := by
  have h := getResourcesInformation_spec
    (fun addr => if addr = "res_a"
      then ⟨some ResourceDetailsType.fungibleResource,
        [⟨"name", Sbor.string none "Radix"⟩]⟩
      else ⟨some ResourceDetailsType.fungibleResource,
        [⟨"name", Sbor.string none ""⟩]⟩)
    none ["res_a", "res_b"]
    [("res_a", ResourceInformation.fungible ⟨"Radix", "res_a", none, none, none, []⟩)]
    "res_a" "res_b"
    [("res_a", ResourceInformation.fungible ⟨"Radix", "res_a", none, none, none, []⟩)]
    rfl (by decide) (by decide) (by decide) rfl
  exact ⟨h.2.1, h.2.2.1, h.2.2.2⟩

/-! ## Fungible holdings join (claim C6) -/

/-- Claim C6 (code bug): an entity holds 5 units of res_xrd, whose
metadata resolves the name Radix. The join is correct for the address,
description, icon, symbol and amount fields, but the returned
FungibleResource's name field is res_xrd — the source fills it from
`resource.information.address` instead of `resource.information.name`,
although getResourcesInformation did resolve the name Radix (second
conjunct) and the sibling getNonFungibleResourcesHeldBy reads
`information.name`. -/
theorem getFungibleResourcesHeldBy_bug :
    getFungibleResourcesHeldBy (fun s => s)
        (fun _ => ⟨some [⟨AggregationLevel.global, "res_xrd", "5"⟩]⟩)
        (fun _ => ⟨some ResourceDetailsType.fungibleResource,
          [⟨"name", Sbor.string none "Radix"⟩]⟩)
        "acct"
      = Except.ok [⟨"res_xrd", "res_xrd", none, none, none, some "5"⟩] ∧
    resolvedInfo none "res_xrd"
        ⟨some ResourceDetailsType.fungibleResource,
          [⟨"name", Sbor.string none "Radix"⟩]⟩
      = some (ResourceInformation.fungible ⟨"Radix", "res_xrd", none, none, none, []⟩) ∧
    ("res_xrd" : String) ≠ "Radix" := by
  refine ⟨by rfl, by rfl, by decide⟩

end TsToolkit
